import Mathlib

/-!
Shallow embedding of the adaptive parallel map-reduce executor
(`MapReduce` / `MapReduceInner` in `crates/dbt-xdbc/src/lib.rs`).

The Rust code runs an async orchestrator (`MapReduce::do_run`) concurrently
with worker tasks (`MapReduce::worker`) and in-flight connection-factory
calls.  We embed it as a small-step transition system: a state records the
shared atomics (`key_counter`, the task/connection statistics), the
orchestrator's control location, the pool of in-flight/completed
connection-factory calls, the spawned workers with their own control
locations, the mpsc channel contents and the accumulator.  A `Sched` event
names which entity advances next; `interp` folds a list of events from the
initial state, so every interleaving of the real program corresponds to a
list of events.  All definitions are executable.

Machine integers: the Rust counters are `AtomicUsize`/`AtomicU64`; key
sequences are bounded by platform pointer width and the spec's claims
assume no wraparound, so they are embedded as `Nat`.  The `f64` arithmetic
of the growth heuristic (`avg_task_time_us`, `avg_conn_time_us`, the `1.5`
sensitivity factor) is embedded as exact rational arithmetic over `ℚ`.
-/

namespace MapReduceModel

/-- `Cancellable<E>` from `dbt-cancel`: either a voluntary cancellation or an
underlying error.  `CancelledError` is the `cancelled` constructor. -/
inductive Cancellable (E : Type) where
  | cancelled : Cancellable E
  | error (e : E) : Cancellable E
deriving DecidableEq, Repr

instance {ε α : Type} [DecidableEq ε] [DecidableEq α] : DecidableEq (Except ε α) := by
  intro a b
  cases a <;> cases b
  case error.error x y =>
    exact if h : x = y then .isTrue (by rw [h]) else .isFalse (by intro hc; cases hc; exact h rfl)
  case ok.ok x y =>
    exact if h : x = y then .isTrue (by rw [h]) else .isFalse (by intro hc; cases hc; exact h rfl)
  case error.ok x y => exact .isFalse (by intro h; cases h)
  case ok.error x y => exact .isFalse (by intro h; cases h)

/-- A (key, value) message on the mpsc channel, with the ghost key index it
was claimed under.  The Rust channel carries `(K, V)`; the index is ghost
data recording which `fetch_add` ticket produced the pair. -/
structure Entry (K V : Type) where
  idx : ℕ
  key : K
  val : V
deriving DecidableEq, Repr

/-- Control location of one worker task (`MapReduce::worker`):
`ready` = about to `key_counter.fetch_add(1)`;
`mapping` = the `spawn_blocking(map_f)` call for key index `i` is in flight;
`sending` = map finished, about to `tx.send((key, value))`;
`finished` = the worker future has returned (result queued for join). -/
inductive WStat (K V Conn : Type) where
  | ready (conn : Conn)
  | mapping (i : ℕ) (key : K) (conn : Conn)
  | sending (i : ℕ) (key : K) (val : V) (conn : Conn)
  | finished
deriving DecidableEq, Repr

/-- Control location of the orchestrator (`MapReduce::do_run`):
`awaitFirst` = at `conn_futures.next().await.unwrap()?` (line 352);
`loop` = at the top of the `while key_counter < keys.len()` loop;
`joinPhase` = in the `while let Some(res) = workers.next().await` loop;
`drainPhase` = in the final `rx.recv_many` loop;
`done r` = `do_run` has returned `r`. -/
inductive Phase (Acc E : Type) where
  | awaitFirst
  | loop
  | joinPhase
  | drainPhase
  | done (r : Except (Cancellable E) Acc)
deriving DecidableEq, Repr

/-- The parameters of one `run` call: the key sequence, the raw
`max_connections` passed to `MapReduce::new` (clamped there to at least 2),
the three injected functions, the per-call durations observed by the
timing instrumentation, and the cancellation token (modelled as the clock
tick from which `token.is_cancelled()` returns true). -/
structure MRParams (K V Conn Acc E : Type) where
  keys : List K
  /-- raw `max_connections` argument of `MapReduce::new` (before `.max(2)`) -/
  max_connections : ℕ
  /-- result of the `j`-th invocation of `new_connection_f` -/
  connResult : ℕ → Except (Cancellable E) Conn
  /-- duration in µs of the `j`-th successful `new_connection_f` call,
  added to `total_conn_time_us` -/
  connTimeUs : ℕ → ℕ
  /-- `map_f`, threading the mutable connection -/
  mapf : Conn → K → V × Conn
  /-- duration in µs of the map call for key index `i`, added to
  `total_task_time_us` -/
  taskTimeUs : ℕ → ℕ
  /-- `reduce_f` -/
  reducef : Acc → K → V → Except (Cancellable E) Acc
  /-- the token becomes (and stays) cancelled at this clock tick -/
  cancelAt : Option ℕ

/-- The shared + orchestrator-local state of one `run` call. -/
structure MRState (K V Conn Acc E : Type) where
  /-- `MapReduceInner::key_counter` -/
  keyCounter : ℕ
  /-- `MapReduceInner::task_count` -/
  taskCount : ℕ
  /-- `MapReduceInner::total_task_time_us` -/
  totalTaskTimeUs : ℕ
  /-- `MapReduceInner::conn_count` -/
  connCount : ℕ
  /-- `MapReduceInner::total_conn_time_us` -/
  totalConnTimeUs : ℕ
  /-- the orchestrator's `n_conns` variable; equals the number of
  `new_connection_f` invocations started so far, which is also used as the
  id of the next invocation -/
  nConns : ℕ
  /-- invocation ids of connection-factory calls in flight -/
  pending : List ℕ
  /-- completed connection-factory results, in completion order, not yet
  consumed by `conn_futures.next()` -/
  connDone : List (Except (Cancellable E) Conn)
  /-- spawned workers in spawn order (a finished worker keeps its slot) -/
  workers : List (WStat K V Conn)
  /-- results of finished workers in completion order, not yet joined:
  `true` = `Ok(())`, `false` = `Err(CancelledError)` -/
  finishedQueue : List Bool
  /-- number of worker join handles already consumed by `workers.next()` -/
  joined : ℕ
  /-- messages buffered in the mpsc channel -/
  chan : List (Entry K V)
  /-- successful `reduce_f` invocations, in order -/
  reduceLog : List (Entry K V)
  acc : Acc
  /-- number of `map_f` invocations -/
  mapCalls : ℕ
  /-- in-range key claims as (worker id, key index), in order -/
  claimLog : List (ℕ × ℕ)
  /-- global clock: number of scheduler events so far -/
  clock : ℕ
  phase : Phase Acc E
deriving DecidableEq, Repr

/-- A scheduler event: which entity makes its next step. -/
inductive Sched where
  | conn (j : ℕ)
  | claim (w : ℕ)
  | finishMap (w : ℕ)
  | send (w : ℕ)
  | orch
deriving DecidableEq, Repr

variable {K V Conn Acc E : Type}

/-- `max_conns` in `do_run`: `keys.len().min(self.max_connections)` where
`self.max_connections` was clamped to `max(raw, 2)` in `MapReduce::new`. -/
def maxConns (p : MRParams K V Conn Acc E) : ℕ :=
  min p.keys.length (max p.max_connections 2)

/-- `token.is_cancelled()` at clock tick `c`. -/
def isCancelled (p : MRParams K V Conn Acc E) (c : ℕ) : Bool :=
  match p.cancelAt with
  | none => false
  | some t => t ≤ c

def Phase.isDone : Phase Acc E → Bool
  | .done _ => true
  | _ => false

def WStat.isFinished : WStat K V Conn → Bool
  | .finished => true
  | _ => false

/-- `MapReduceInner::avg_conn_time_us`, with `f64` modelled as `ℚ`. -/
def avg_conn_time_us (s : MRState K V Conn Acc E) : ℚ :=
  (s.totalConnTimeUs : ℚ) / (max s.connCount 1 : ℕ)

/-- `MapReduceInner::avg_task_time_us`, with `f64` modelled as `ℚ`. -/
def avg_task_time_us (s : MRState K V Conn Acc E) : ℚ :=
  (s.totalTaskTimeUs : ℚ) / (max s.taskCount 1 : ℕ)

/-- `remaining_keys` as computed in `do_run` (lines 362-369). -/
def remaining_keys (p : MRParams K V Conn Acc E) (s : MRState K V Conn Acc E) : ℕ :=
  if s.keyCounter < p.keys.length then p.keys.length - s.keyCounter else 0

/-- The growth-heuristic comparison of `do_run` (lines 371-374):
`(remaining_keys as f64 * avg_task_time_us) / (n_conns as f64)
 > avg_conn_time_us * 1.5`. -/
def growRatioHolds (p : MRParams K V Conn Acc E) (s : MRState K V Conn Acc E) : Prop :=
  (remaining_keys p s : ℚ) * avg_task_time_us s / (s.nConns : ℚ)
    > avg_conn_time_us s * (3 / 2)

/-- The heuristic comparison, cross-multiplied into `ℕ` (all denominators
`max _ 1` and — at every reachable decision point — `n_conns` are
positive).  Used only to give `growRatioHolds` a decidability instance the
kernel can evaluate. -/
theorem growRatioHolds_iff (p : MRParams K V Conn Acc E) (s : MRState K V Conn Acc E) :
    growRatioHolds p s ↔
      0 < s.nConns ∧
        3 * s.totalConnTimeUs * max s.taskCount 1 * s.nConns <
          2 * remaining_keys p s * s.totalTaskTimeUs * max s.connCount 1 := by
  unfold growRatioHolds avg_task_time_us avg_conn_time_us
  set R := remaining_keys p s with hRdef
  set T := s.totalTaskTimeUs with hTdef
  set tc := max s.taskCount 1 with htcdef
  set C := s.totalConnTimeUs with hCdef
  set cc := max s.connCount 1 with hccdef
  set n := s.nConns with hndef
  have htc : (0:ℚ) < (tc : ℕ) := by
    have h1 : 1 ≤ tc := le_max_right _ _
    exact_mod_cast Nat.lt_of_lt_of_le Nat.zero_lt_one h1
  have hcc : (0:ℚ) < (cc : ℕ) := by
    have h1 : 1 ≤ cc := le_max_right _ _
    exact_mod_cast Nat.lt_of_lt_of_le Nat.zero_lt_one h1
  by_cases hn : 0 < n
  · have hnq : (0:ℚ) < (n : ℕ) := by exact_mod_cast hn
    have hrw : (R : ℚ) * ((T : ℚ) / (tc : ℕ)) / (n : ℕ) =
        ((R : ℚ) * T) / ((tc : ℕ) * n) := by
      field_simp
      try ring
    have hrw2 : ((C : ℚ) / (cc : ℕ)) * (3 / 2) = (3 * C : ℚ) / (2 * (cc : ℕ)) := by
      field_simp
      try ring
    rw [gt_iff_lt, hrw, hrw2, div_lt_div_iff₀ (by positivity) (by positivity)]
    constructor
    · intro h
      refine ⟨hn, ?_⟩
      have h2 : ((3 * C * tc * n : ℕ) : ℚ) < ((2 * R * T * cc : ℕ) : ℚ) := by
        push_cast
        nlinarith [h]
      exact_mod_cast h2
    · rintro ⟨-, h⟩
      have h2 : ((3 * C * tc * n : ℕ) : ℚ) < ((2 * R * T * cc : ℕ) : ℚ) := by
        exact_mod_cast h
      push_cast at h2
      nlinarith [h2]
  · have hn0 : n = 0 := Nat.eq_zero_of_not_pos hn
    rw [hn0]
    simp only [Nat.cast_zero, div_zero, gt_iff_lt, Nat.lt_irrefl, false_and, iff_false,
      not_lt]
    positivity

instance (p : MRParams K V Conn Acc E) (s : MRState K V Conn Acc E) :
    Decidable (growRatioHolds p s) :=
  decidable_of_iff _ (growRatioHolds_iff p s).symm

/-- The full grow decision: `n_conns < max_conns` (line 361) and the ratio
comparison (lines 372-374). -/
def shouldGrow (p : MRParams K V Conn Acc E) (s : MRState K V Conn Acc E) : Prop :=
  s.nConns < maxConns p ∧ growRatioHolds p s

instance (p : MRParams K V Conn Acc E) (s : MRState K V Conn Acc E) :
    Decidable (shouldGrow p s) := by
  unfold shouldGrow; infer_instance

/-- Initial state of `do_run` up to its first suspension point
(lines 326-348): empty keys return `Ok(Acc::default())` immediately;
otherwise one connection-factory call is started, a second one
speculatively if `max_conns > 1`, and the orchestrator suspends at
`conn_futures.next().await` (phase `awaitFirst`). -/
def initState [Inhabited Acc] (p : MRParams K V Conn Acc E) : MRState K V Conn Acc E :=
  let base : MRState K V Conn Acc E :=
    { keyCounter := 0, taskCount := 0, totalTaskTimeUs := 0,
      connCount := 0, totalConnTimeUs := 0,
      nConns := 0, pending := [], connDone := [],
      workers := [], finishedQueue := [], joined := 0,
      chan := [], reduceLog := [], acc := default,
      mapCalls := 0, claimLog := [], clock := 0, phase := .awaitFirst }
  if p.keys.isEmpty then
    { base with phase := .done (.ok default) }
  else if maxConns p > 1 then
    { base with nConns := 2, pending := [0, 1] }
  else
    { base with nConns := 1, pending := [0] }

/-- Completion of in-flight connection-factory invocation `j`
(`MapReduceInner::new_connection`, lines 136-147): on success the
connection statistics are bumped; either way the result is queued for
`conn_futures.next()` in completion order. -/
def connStep (p : MRParams K V Conn Acc E) (s : MRState K V Conn Acc E) (j : ℕ) :
    MRState K V Conn Acc E :=
  if j ∈ s.pending then
    match p.connResult j with
    | .ok c =>
        { s with pending := s.pending.erase j,
                 connCount := s.connCount + 1,
                 totalConnTimeUs := s.totalConnTimeUs + p.connTimeUs j,
                 connDone := s.connDone ++ [.ok c] }
    | .error e =>
        { s with pending := s.pending.erase j,
                 connDone := s.connDone ++ [.error e] }
  else s

/-- Worker `w` executes `key_counter.fetch_add(1)` and the bounds check
(`MapReduce::worker`, lines 276-279): an in-range ticket moves it to
`mapping`; an out-of-range ticket makes the worker return `Ok(())`. -/
def claimStep (p : MRParams K V Conn Acc E) (s : MRState K V Conn Acc E) (w : ℕ) :
    MRState K V Conn Acc E :=
  match s.workers.get? w with
  | some (.ready conn) =>
      if h : s.keyCounter < p.keys.length then
        { s with keyCounter := s.keyCounter + 1,
                 workers := s.workers.set w (.mapping s.keyCounter (p.keys.get ⟨s.keyCounter, h⟩) conn),
                 claimLog := s.claimLog ++ [(w, s.keyCounter)] }
      else
        { s with keyCounter := s.keyCounter + 1,
                 workers := s.workers.set w .finished,
                 finishedQueue := s.finishedQueue ++ [true] }
  | _ => s

/-- Worker `w`'s blocking map task completes (`MapReduce::worker`,
lines 280-295, and `MapReduceInner::map`, lines 149-158): the value is
computed, the task statistics are bumped, and the worker holds the value
ready to send. -/
def finishMapStep (p : MRParams K V Conn Acc E) (s : MRState K V Conn Acc E) (w : ℕ) :
    MRState K V Conn Acc E :=
  match s.workers.get? w with
  | some (.mapping i k conn) =>
      let r := p.mapf conn k
      { s with workers := s.workers.set w (.sending i k r.1 r.2),
               mapCalls := s.mapCalls + 1,
               taskCount := s.taskCount + 1,
               totalTaskTimeUs := s.totalTaskTimeUs + p.taskTimeUs i }
  | _ => s

/-- Worker `w` executes `tx.send((key, value))` and the post-send token
check (`MapReduce::worker`, lines 297-309).  The receiver `rx` is alive
exactly while `do_run` has not returned, so a send fails (and the worker
returns `Err(CancelledError)`) iff the orchestrator is `done`. -/
def sendStep (p : MRParams K V Conn Acc E) (s : MRState K V Conn Acc E) (w : ℕ) :
    MRState K V Conn Acc E :=
  match s.workers.get? w with
  | some (.sending i k v conn) =>
      if s.phase.isDone then
        { s with workers := s.workers.set w .finished,
                 finishedQueue := s.finishedQueue ++ [false] }
      else if isCancelled p s.clock then
        { s with chan := s.chan ++ [⟨i, k, v⟩],
                 workers := s.workers.set w .finished,
                 finishedQueue := s.finishedQueue ++ [false] }
      else
        { s with chan := s.chan ++ [⟨i, k, v⟩],
                 workers := s.workers.set w (.ready conn) }
  | _ => s

/-- Reduce a drained batch (`recv_buffer.pop()` processes a received batch
in reverse order; a `reduce_f` error propagates through `?`, ending
`do_run` with that error). -/
def reduceMany (p : MRParams K V Conn Acc E) (s : MRState K V Conn Acc E) :
    List (Entry K V) → MRState K V Conn Acc E
  | [] => s
  | e :: rest =>
      match p.reducef s.acc e.key e.val with
      | .ok a =>
          reduceMany p { s with acc := a, reduceLog := s.reduceLog ++ [e] } rest
      | .error err => { s with phase := .done (.error err) }

/-- Orchestrator step at `awaitFirst` (lines 352-354): consume the first
completed connection result; an error propagates through `?`; a success
spawns the first worker and control reaches the `while` loop head. -/
def awaitFirstStep (p : MRParams K V Conn Acc E) (s : MRState K V Conn Acc E) :
    MRState K V Conn Acc E :=
  match s.connDone with
  | [] => s
  | r :: rest =>
      match r with
      | .error e => { s with connDone := rest, phase := .done (.error e) }
      | .ok c =>
          let s₁ := { s with connDone := rest, workers := s.workers ++ [WStat.ready c] }
          { s₁ with phase := if s₁.keyCounter < p.keys.length then .loop else .joinPhase }

/-- Step 1 of a loop iteration, `conn_futures.next().await` (lines
357-360): pop the next completed connection result; an `Ok` spawns a
worker, an `Err` is silently dropped. -/
def loopConsume (_p : MRParams K V Conn Acc E) (s : MRState K V Conn Acc E) :
    MRState K V Conn Acc E :=
  match s.connDone with
  | .ok c :: rest => { s with connDone := rest, workers := s.workers ++ [WStat.ready c] }
  | .error _ :: rest => { s with connDone := rest }
  | [] => s

/-- Steps 3-5 of a non-growing loop iteration: drain a batch of up to
`n_conns` buffered results if any (lines 381-392; the empty-channel sleep
is a semantic no-op). -/
def loopDrain (p : MRParams K V Conn Acc E) (s : MRState K V Conn Acc E) :
    MRState K V Conn Acc E :=
  if s.chan.isEmpty then s
  else
    reduceMany p { s with chan := s.chan.drop (min s.nConns s.chan.length) }
      ((s.chan.take (min s.nConns s.chan.length)).reverse)

/-- `token.check_cancellation()?` at the end of a non-growing iteration
(line 394) followed by the `while` condition re-evaluation (line 356). -/
def loopTail (p : MRParams K V Conn Acc E) (s : MRState K V Conn Acc E) :
    MRState K V Conn Acc E :=
  if s.phase.isDone then s
  else if isCancelled p s.clock then { s with phase := .done (.error .cancelled) }
  else { s with phase := if s.keyCounter < p.keys.length then .loop else .joinPhase }

/-- One iteration of the orchestrator's scheduling loop (lines 356-395),
starting at the suspension point `conn_futures.next().await`: consume a
completed connection result (blocking if calls are in flight but none has
completed), then either grow — starting a factory call and `continue`-ing,
which skips both the drain and the cancellation check — or drain and
check. -/
def loopStep (p : MRParams K V Conn Acc E) (s : MRState K V Conn Acc E) :
    MRState K V Conn Acc E :=
  if s.connDone.isEmpty ∧ ¬ s.pending.isEmpty then s
  else if shouldGrow p (loopConsume p s) then
    { loopConsume p s with
        pending := (loopConsume p s).pending ++ [(loopConsume p s).nConns],
        nConns := (loopConsume p s).nConns + 1,
        phase := if (loopConsume p s).keyCounter < p.keys.length then .loop else .joinPhase }
  else loopTail p (loopDrain p (loopConsume p s))

/-- One iteration of the worker-join loop (lines 399-410):
`workers.next().await` yields worker results in completion order and
returns `None` once every spawned worker has been joined; a worker's
`Err(CancelledError)` propagates; after each joined worker the token is
checked. -/
def joinStep (p : MRParams K V Conn Acc E) (s : MRState K V Conn Acc E) :
    MRState K V Conn Acc E :=
  match s.finishedQueue with
  | [] =>
      if s.joined = s.workers.length then { s with phase := .drainPhase }
      else s
  | b :: rest =>
      let s₁ := { s with finishedQueue := rest, joined := s.joined + 1 }
      if b then
        if isCancelled p s.clock then { s₁ with phase := .done (.error .cancelled) }
        else s₁
      else { s₁ with phase := .done (.error .cancelled) }

/-- The token check after a reduced batch of the final drain loop
(line 421). -/
def drainTail (p : MRParams K V Conn Acc E) (s : MRState K V Conn Acc E) :
    MRState K V Conn Acc E :=
  if s.phase.isDone then s
  else if isCancelled p s.clock then { s with phase := .done (.error .cancelled) }
  else s

/-- One iteration of the final drain loop (lines 412-422): all senders are
gone by now, so `recv_many` returns an available batch or 0; a 0 batch
breaks the loop and `do_run` returns `Ok(acc)`; otherwise the batch is
reduced and the token checked. -/
def drainStep (p : MRParams K V Conn Acc E) (s : MRState K V Conn Acc E) :
    MRState K V Conn Acc E :=
  if s.chan.isEmpty then { s with phase := .done (.ok s.acc) }
  else
    drainTail p (reduceMany p { s with chan := s.chan.drop (min s.nConns s.chan.length) }
      ((s.chan.take (min s.nConns s.chan.length)).reverse))

/-- Dispatch of the orchestrator's step by control location; `done` is
absorbing for the orchestrator. -/
def orchStep (p : MRParams K V Conn Acc E) (s : MRState K V Conn Acc E) :
    MRState K V Conn Acc E :=
  match s.phase with
  | .awaitFirst => awaitFirstStep p s
  | .loop => loopStep p s
  | .joinPhase => joinStep p s
  | .drainPhase => drainStep p s
  | .done _ => s

/-- One scheduler event.  Every event advances the global clock; an event
naming an entity that is not enabled is a no-op (only the clock moves). -/
def step (p : MRParams K V Conn Acc E) (s : MRState K V Conn Acc E) (ev : Sched) :
    MRState K V Conn Acc E :=
  let s' :=
    match ev with
    | .conn j => connStep p s j
    | .claim w => claimStep p s w
    | .finishMap w => finishMapStep p s w
    | .send w => sendStep p s w
    | .orch => orchStep p s
  { s' with clock := s.clock + 1 }

/-- Run the transition system under a given schedule. -/
def interp [Inhabited Acc] (p : MRParams K V Conn Acc E) (evs : List Sched) :
    MRState K V Conn Acc E :=
  evs.foldl (step p) (initState p)

end MapReduceModel

namespace MapReduceModel

variable {K V Conn Acc E : Type}

/-! ### Generic helpers -/

theorem foldl_preserve {σ α : Type _} (P : σ → Prop) {f : σ → α → σ}
    (hf : ∀ s a, P s → P (f s a)) :
    ∀ (l : List α) (s : σ), P s → P (l.foldl f s) := by
  intro l
  induction l with
  | nil => intro s hs; exact hs
  | cons a t ih => intro s hs; exact ih _ (hf s a hs)

theorem interp_append [Inhabited Acc] (p : MRParams K V Conn Acc E) (l₁ l₂ : List Sched) :
    interp p (l₁ ++ l₂) = l₂.foldl (step p) (interp p l₁) := by
  unfold interp
  exact List.foldl_append _ _ _ _

/-- `reduceMany` only touches `acc`, `reduceLog` and `phase`. -/
theorem reduceMany_fields (p : MRParams K V Conn Acc E) :
    ∀ (l : List (Entry K V)) (s : MRState K V Conn Acc E),
      (reduceMany p s l).keyCounter = s.keyCounter ∧
      (reduceMany p s l).taskCount = s.taskCount ∧
      (reduceMany p s l).totalTaskTimeUs = s.totalTaskTimeUs ∧
      (reduceMany p s l).connCount = s.connCount ∧
      (reduceMany p s l).totalConnTimeUs = s.totalConnTimeUs ∧
      (reduceMany p s l).nConns = s.nConns ∧
      (reduceMany p s l).pending = s.pending ∧
      (reduceMany p s l).connDone = s.connDone ∧
      (reduceMany p s l).workers = s.workers ∧
      (reduceMany p s l).finishedQueue = s.finishedQueue ∧
      (reduceMany p s l).joined = s.joined ∧
      (reduceMany p s l).chan = s.chan ∧
      (reduceMany p s l).mapCalls = s.mapCalls ∧
      (reduceMany p s l).claimLog = s.claimLog ∧
      (reduceMany p s l).clock = s.clock := by
  intro l
  induction l with
  | nil => intro s; simp [reduceMany]
  | cons e rest ih =>
      intro s
      cases h : p.reducef s.acc e.key e.val with
      | ok a => simpa [reduceMany, h] using ih _
      | error err => simp [reduceMany, h]

/-- `reduceMany` appends some prefix of its batch to the reduce log; the
phase is unchanged unless a `reduce_f` error ends the run. -/
theorem reduceMany_log (p : MRParams K V Conn Acc E) :
    ∀ (l : List (Entry K V)) (s : MRState K V Conn Acc E),
      ∃ l₁ l₂, l = l₁ ++ l₂ ∧ (reduceMany p s l).reduceLog = s.reduceLog ++ l₁ ∧
        ((reduceMany p s l).phase = s.phase ∧ l₂ = [] ∨
          ∃ err, (reduceMany p s l).phase = Phase.done (Except.error err)) := by
  intro l
  induction l with
  | nil => intro s; exact ⟨[], [], by simp [reduceMany]⟩
  | cons e rest ih =>
      intro s
      cases h : p.reducef s.acc e.key e.val with
      | ok a =>
          obtain ⟨l₁, l₂, hsplit, hlog, hphase⟩ :=
            ih { s with acc := a, reduceLog := s.reduceLog ++ [e] }
          refine ⟨e :: l₁, l₂, by simp [hsplit], ?_, ?_⟩
          · simp [reduceMany, h, hlog]
          · simpa [reduceMany, h] using hphase
      | error err =>
          exact ⟨[], e :: rest, rfl, by simp [reduceMany, h],
            Or.inr ⟨err, by simp [reduceMany, h]⟩⟩

/-- When `reduce_f` never fails, `reduceMany` reduces the whole batch and
keeps the phase. -/
theorem reduceMany_ok (p : MRParams K V Conn Acc E)
    (hred : ∀ a k v, ∃ a', p.reducef a k v = Except.ok a') :
    ∀ (l : List (Entry K V)) (s : MRState K V Conn Acc E),
      (reduceMany p s l).phase = s.phase ∧
      (reduceMany p s l).reduceLog = s.reduceLog ++ l := by
  intro l
  induction l with
  | nil => intro s; simp [reduceMany]
  | cons e rest ih =>
      intro s
      obtain ⟨a', ha⟩ := hred s.acc e.key e.val
      have := ih { s with acc := a', reduceLog := s.reduceLog ++ [e] }
      simpa [reduceMany, ha] using this

/-- With `reduce_f = Ok ∘ g`, the accumulator is the left fold of `g` over
the batch. -/
theorem reduceMany_acc (p : MRParams K V Conn Acc E) (g : Acc → K → V → Acc)
    (hred : ∀ a k v, p.reducef a k v = Except.ok (g a k v)) :
    ∀ (l : List (Entry K V)) (s : MRState K V Conn Acc E),
      (reduceMany p s l).acc = l.foldl (fun a e => g a e.key e.val) s.acc := by
  intro l
  induction l with
  | nil => intro s; simp [reduceMany]
  | cons e rest ih =>
      intro s
      have := ih { s with acc := g s.acc e.key e.val, reduceLog := s.reduceLog ++ [e] }
      simpa [reduceMany, hred] using this

end MapReduceModel

namespace MapReduceModel

variable {K V Conn Acc E : Type}

theorem reduceMany_nConns (p : MRParams K V Conn Acc E) (l s) :
    (reduceMany p s l).nConns = s.nConns := (reduceMany_fields p l s).2.2.2.2.2.1

theorem reduceMany_keyCounter (p : MRParams K V Conn Acc E) (l s) :
    (reduceMany p s l).keyCounter = s.keyCounter := (reduceMany_fields p l s).1

theorem reduceMany_workers (p : MRParams K V Conn Acc E) (l s) :
    (reduceMany p s l).workers = s.workers := (reduceMany_fields p l s).2.2.2.2.2.2.2.2.1

theorem reduceMany_chan (p : MRParams K V Conn Acc E) (l s) :
    (reduceMany p s l).chan = s.chan := (reduceMany_fields p l s).2.2.2.2.2.2.2.2.2.2.2.1

theorem reduceMany_claimLog (p : MRParams K V Conn Acc E) (l s) :
    (reduceMany p s l).claimLog = s.claimLog :=
  (reduceMany_fields p l s).2.2.2.2.2.2.2.2.2.2.2.2.2.1

theorem reduceMany_finishedQueue (p : MRParams K V Conn Acc E) (l s) :
    (reduceMany p s l).finishedQueue = s.finishedQueue :=
  (reduceMany_fields p l s).2.2.2.2.2.2.2.2.2.1

theorem reduceMany_joined (p : MRParams K V Conn Acc E) (l s) :
    (reduceMany p s l).joined = s.joined := (reduceMany_fields p l s).2.2.2.2.2.2.2.2.2.2.1

theorem reduceMany_pending (p : MRParams K V Conn Acc E) (l s) :
    (reduceMany p s l).pending = s.pending := (reduceMany_fields p l s).2.2.2.2.2.2.1

theorem reduceMany_connDone (p : MRParams K V Conn Acc E) (l s) :
    (reduceMany p s l).connDone = s.connDone := (reduceMany_fields p l s).2.2.2.2.2.2.2.1

theorem reduceMany_mapCalls (p : MRParams K V Conn Acc E) (l s) :
    (reduceMany p s l).mapCalls = s.mapCalls :=
  (reduceMany_fields p l s).2.2.2.2.2.2.2.2.2.2.2.2.1

theorem reduceMany_taskCount (p : MRParams K V Conn Acc E) (l s) :
    (reduceMany p s l).taskCount = s.taskCount := (reduceMany_fields p l s).2.1

theorem reduceMany_totalTaskTimeUs (p : MRParams K V Conn Acc E) (l s) :
    (reduceMany p s l).totalTaskTimeUs = s.totalTaskTimeUs := (reduceMany_fields p l s).2.2.1

theorem reduceMany_connCount (p : MRParams K V Conn Acc E) (l s) :
    (reduceMany p s l).connCount = s.connCount := (reduceMany_fields p l s).2.2.2.1

theorem reduceMany_totalConnTimeUs (p : MRParams K V Conn Acc E) (l s) :
    (reduceMany p s l).totalConnTimeUs = s.totalConnTimeUs := (reduceMany_fields p l s).2.2.2.2.1

/-- Fields `connStep` leaves unchanged. -/
theorem connStep_frame (p : MRParams K V Conn Acc E) (s : MRState K V Conn Acc E) (j : ℕ) :
    (connStep p s j).keyCounter = s.keyCounter ∧
    (connStep p s j).workers = s.workers ∧
    (connStep p s j).chan = s.chan ∧
    (connStep p s j).reduceLog = s.reduceLog ∧
    (connStep p s j).claimLog = s.claimLog ∧
    (connStep p s j).phase = s.phase ∧
    (connStep p s j).acc = s.acc ∧
    (connStep p s j).mapCalls = s.mapCalls ∧
    (connStep p s j).nConns = s.nConns ∧
    (connStep p s j).finishedQueue = s.finishedQueue ∧
    (connStep p s j).joined = s.joined ∧
    (connStep p s j).taskCount = s.taskCount ∧
    (connStep p s j).totalTaskTimeUs = s.totalTaskTimeUs := by
  unfold connStep
  (repeat' split) <;> and_intros <;> rfl

/-- Fields `claimStep` leaves unchanged. -/
theorem claimStep_frame (p : MRParams K V Conn Acc E) (s : MRState K V Conn Acc E) (w : ℕ) :
    (claimStep p s w).taskCount = s.taskCount ∧
    (claimStep p s w).totalTaskTimeUs = s.totalTaskTimeUs ∧
    (claimStep p s w).connCount = s.connCount ∧
    (claimStep p s w).totalConnTimeUs = s.totalConnTimeUs ∧
    (claimStep p s w).nConns = s.nConns ∧
    (claimStep p s w).pending = s.pending ∧
    (claimStep p s w).connDone = s.connDone ∧
    (claimStep p s w).chan = s.chan ∧
    (claimStep p s w).reduceLog = s.reduceLog ∧
    (claimStep p s w).acc = s.acc ∧
    (claimStep p s w).mapCalls = s.mapCalls ∧
    (claimStep p s w).phase = s.phase ∧
    (claimStep p s w).joined = s.joined := by
  unfold claimStep
  (repeat' split) <;> and_intros <;> rfl

/-- Fields `finishMapStep` leaves unchanged. -/
theorem finishMapStep_frame (p : MRParams K V Conn Acc E) (s : MRState K V Conn Acc E) (w : ℕ) :
    (finishMapStep p s w).keyCounter = s.keyCounter ∧
    (finishMapStep p s w).connCount = s.connCount ∧
    (finishMapStep p s w).totalConnTimeUs = s.totalConnTimeUs ∧
    (finishMapStep p s w).nConns = s.nConns ∧
    (finishMapStep p s w).pending = s.pending ∧
    (finishMapStep p s w).connDone = s.connDone ∧
    (finishMapStep p s w).chan = s.chan ∧
    (finishMapStep p s w).reduceLog = s.reduceLog ∧
    (finishMapStep p s w).acc = s.acc ∧
    (finishMapStep p s w).claimLog = s.claimLog ∧
    (finishMapStep p s w).phase = s.phase ∧
    (finishMapStep p s w).finishedQueue = s.finishedQueue ∧
    (finishMapStep p s w).joined = s.joined := by
  unfold finishMapStep
  (repeat' split) <;> and_intros <;> rfl

/-- Fields `sendStep` leaves unchanged. -/
theorem sendStep_frame (p : MRParams K V Conn Acc E) (s : MRState K V Conn Acc E) (w : ℕ) :
    (sendStep p s w).keyCounter = s.keyCounter ∧
    (sendStep p s w).taskCount = s.taskCount ∧
    (sendStep p s w).totalTaskTimeUs = s.totalTaskTimeUs ∧
    (sendStep p s w).connCount = s.connCount ∧
    (sendStep p s w).totalConnTimeUs = s.totalConnTimeUs ∧
    (sendStep p s w).nConns = s.nConns ∧
    (sendStep p s w).pending = s.pending ∧
    (sendStep p s w).connDone = s.connDone ∧
    (sendStep p s w).reduceLog = s.reduceLog ∧
    (sendStep p s w).acc = s.acc ∧
    (sendStep p s w).mapCalls = s.mapCalls ∧
    (sendStep p s w).claimLog = s.claimLog ∧
    (sendStep p s w).phase = s.phase ∧
    (sendStep p s w).joined = s.joined := by
  unfold sendStep
  (repeat' split) <;> and_intros <;> rfl

/-- Fields `awaitFirstStep` leaves unchanged. -/
theorem awaitFirstStep_frame (p : MRParams K V Conn Acc E) (s : MRState K V Conn Acc E) :
    (awaitFirstStep p s).keyCounter = s.keyCounter ∧
    (awaitFirstStep p s).taskCount = s.taskCount ∧
    (awaitFirstStep p s).totalTaskTimeUs = s.totalTaskTimeUs ∧
    (awaitFirstStep p s).connCount = s.connCount ∧
    (awaitFirstStep p s).totalConnTimeUs = s.totalConnTimeUs ∧
    (awaitFirstStep p s).nConns = s.nConns ∧
    (awaitFirstStep p s).pending = s.pending ∧
    (awaitFirstStep p s).chan = s.chan ∧
    (awaitFirstStep p s).reduceLog = s.reduceLog ∧
    (awaitFirstStep p s).acc = s.acc ∧
    (awaitFirstStep p s).mapCalls = s.mapCalls ∧
    (awaitFirstStep p s).claimLog = s.claimLog ∧
    (awaitFirstStep p s).finishedQueue = s.finishedQueue ∧
    (awaitFirstStep p s).joined = s.joined := by
  unfold awaitFirstStep
  (repeat' split) <;> and_intros <;> rfl

/-- Fields `joinStep` leaves unchanged. -/
theorem joinStep_frame (p : MRParams K V Conn Acc E) (s : MRState K V Conn Acc E) :
    (joinStep p s).keyCounter = s.keyCounter ∧
    (joinStep p s).taskCount = s.taskCount ∧
    (joinStep p s).totalTaskTimeUs = s.totalTaskTimeUs ∧
    (joinStep p s).connCount = s.connCount ∧
    (joinStep p s).totalConnTimeUs = s.totalConnTimeUs ∧
    (joinStep p s).nConns = s.nConns ∧
    (joinStep p s).pending = s.pending ∧
    (joinStep p s).connDone = s.connDone ∧
    (joinStep p s).workers = s.workers ∧
    (joinStep p s).chan = s.chan ∧
    (joinStep p s).reduceLog = s.reduceLog ∧
    (joinStep p s).acc = s.acc ∧
    (joinStep p s).mapCalls = s.mapCalls ∧
    (joinStep p s).claimLog = s.claimLog := by
  unfold joinStep
  (repeat' split) <;> and_intros <;> rfl

/-- Fields `loopConsume` leaves unchanged. -/
theorem loopConsume_frame (p : MRParams K V Conn Acc E) (s : MRState K V Conn Acc E) :
    (loopConsume p s).keyCounter = s.keyCounter ∧
    (loopConsume p s).taskCount = s.taskCount ∧
    (loopConsume p s).totalTaskTimeUs = s.totalTaskTimeUs ∧
    (loopConsume p s).connCount = s.connCount ∧
    (loopConsume p s).totalConnTimeUs = s.totalConnTimeUs ∧
    (loopConsume p s).nConns = s.nConns ∧
    (loopConsume p s).pending = s.pending ∧
    (loopConsume p s).chan = s.chan ∧
    (loopConsume p s).reduceLog = s.reduceLog ∧
    (loopConsume p s).acc = s.acc ∧
    (loopConsume p s).mapCalls = s.mapCalls ∧
    (loopConsume p s).claimLog = s.claimLog ∧
    (loopConsume p s).phase = s.phase ∧
    (loopConsume p s).finishedQueue = s.finishedQueue ∧
    (loopConsume p s).joined = s.joined ∧
    (loopConsume p s).keyCounter = s.keyCounter ∧
    (loopConsume p s).clock = s.clock := by
  unfold loopConsume
  (repeat' split) <;> and_intros <;> rfl

/-- Fields `loopDrain` leaves unchanged. -/
theorem loopDrain_frame (p : MRParams K V Conn Acc E) (s : MRState K V Conn Acc E) :
    (loopDrain p s).keyCounter = s.keyCounter ∧
    (loopDrain p s).taskCount = s.taskCount ∧
    (loopDrain p s).totalTaskTimeUs = s.totalTaskTimeUs ∧
    (loopDrain p s).connCount = s.connCount ∧
    (loopDrain p s).totalConnTimeUs = s.totalConnTimeUs ∧
    (loopDrain p s).nConns = s.nConns ∧
    (loopDrain p s).pending = s.pending ∧
    (loopDrain p s).connDone = s.connDone ∧
    (loopDrain p s).workers = s.workers ∧
    (loopDrain p s).mapCalls = s.mapCalls ∧
    (loopDrain p s).claimLog = s.claimLog ∧
    (loopDrain p s).finishedQueue = s.finishedQueue ∧
    (loopDrain p s).joined = s.joined ∧
    (loopDrain p s).clock = s.clock := by
  unfold loopDrain
  split
  · and_intros <;> rfl
  · and_intros <;>
      simp [reduceMany_keyCounter, reduceMany_taskCount, reduceMany_totalTaskTimeUs,
        reduceMany_connCount, reduceMany_totalConnTimeUs, reduceMany_nConns,
        reduceMany_pending, reduceMany_connDone, reduceMany_workers,
        reduceMany_finishedQueue, reduceMany_joined, reduceMany_mapCalls,
        reduceMany_claimLog, reduceMany_fields]

/-- Fields `loopTail` leaves unchanged. -/
theorem loopTail_frame (p : MRParams K V Conn Acc E) (s : MRState K V Conn Acc E) :
    (loopTail p s).keyCounter = s.keyCounter ∧
    (loopTail p s).taskCount = s.taskCount ∧
    (loopTail p s).totalTaskTimeUs = s.totalTaskTimeUs ∧
    (loopTail p s).connCount = s.connCount ∧
    (loopTail p s).totalConnTimeUs = s.totalConnTimeUs ∧
    (loopTail p s).nConns = s.nConns ∧
    (loopTail p s).pending = s.pending ∧
    (loopTail p s).connDone = s.connDone ∧
    (loopTail p s).workers = s.workers ∧
    (loopTail p s).chan = s.chan ∧
    (loopTail p s).reduceLog = s.reduceLog ∧
    (loopTail p s).acc = s.acc ∧
    (loopTail p s).mapCalls = s.mapCalls ∧
    (loopTail p s).claimLog = s.claimLog ∧
    (loopTail p s).finishedQueue = s.finishedQueue ∧
    (loopTail p s).joined = s.joined ∧
    (loopTail p s).clock = s.clock := by
  unfold loopTail
  (repeat' split) <;> and_intros <;> rfl

/-- Fields `drainTail` leaves unchanged. -/
theorem drainTail_frame (p : MRParams K V Conn Acc E) (s : MRState K V Conn Acc E) :
    (drainTail p s).keyCounter = s.keyCounter ∧
    (drainTail p s).taskCount = s.taskCount ∧
    (drainTail p s).totalTaskTimeUs = s.totalTaskTimeUs ∧
    (drainTail p s).connCount = s.connCount ∧
    (drainTail p s).totalConnTimeUs = s.totalConnTimeUs ∧
    (drainTail p s).nConns = s.nConns ∧
    (drainTail p s).pending = s.pending ∧
    (drainTail p s).connDone = s.connDone ∧
    (drainTail p s).workers = s.workers ∧
    (drainTail p s).chan = s.chan ∧
    (drainTail p s).reduceLog = s.reduceLog ∧
    (drainTail p s).acc = s.acc ∧
    (drainTail p s).mapCalls = s.mapCalls ∧
    (drainTail p s).claimLog = s.claimLog ∧
    (drainTail p s).finishedQueue = s.finishedQueue ∧
    (drainTail p s).joined = s.joined ∧
    (drainTail p s).clock = s.clock := by
  unfold drainTail
  (repeat' split) <;> and_intros <;> rfl

/-- Fields `drainStep` leaves unchanged. -/
theorem drainStep_frame (p : MRParams K V Conn Acc E) (s : MRState K V Conn Acc E) :
    (drainStep p s).keyCounter = s.keyCounter ∧
    (drainStep p s).taskCount = s.taskCount ∧
    (drainStep p s).totalTaskTimeUs = s.totalTaskTimeUs ∧
    (drainStep p s).connCount = s.connCount ∧
    (drainStep p s).totalConnTimeUs = s.totalConnTimeUs ∧
    (drainStep p s).nConns = s.nConns ∧
    (drainStep p s).pending = s.pending ∧
    (drainStep p s).connDone = s.connDone ∧
    (drainStep p s).workers = s.workers ∧
    (drainStep p s).finishedQueue = s.finishedQueue ∧
    (drainStep p s).joined = s.joined ∧
    (drainStep p s).mapCalls = s.mapCalls ∧
    (drainStep p s).claimLog = s.claimLog := by
  unfold drainStep
  split
  · and_intros <;> rfl
  · and_intros <;>
      simp [drainTail_frame, reduceMany_keyCounter, reduceMany_taskCount,
        reduceMany_totalTaskTimeUs, reduceMany_connCount, reduceMany_totalConnTimeUs,
        reduceMany_nConns, reduceMany_pending, reduceMany_connDone, reduceMany_workers,
        reduceMany_finishedQueue, reduceMany_joined, reduceMany_mapCalls,
        reduceMany_claimLog]

/-- Fields one scheduling-loop iteration leaves unchanged. -/
theorem loopStep_frame (p : MRParams K V Conn Acc E) (s : MRState K V Conn Acc E) :
    (loopStep p s).keyCounter = s.keyCounter ∧
    (loopStep p s).taskCount = s.taskCount ∧
    (loopStep p s).totalTaskTimeUs = s.totalTaskTimeUs ∧
    (loopStep p s).connCount = s.connCount ∧
    (loopStep p s).totalConnTimeUs = s.totalConnTimeUs ∧
    (loopStep p s).mapCalls = s.mapCalls ∧
    (loopStep p s).claimLog = s.claimLog ∧
    (loopStep p s).finishedQueue = s.finishedQueue ∧
    (loopStep p s).joined = s.joined := by
  unfold loopStep
  split
  · and_intros <;> rfl
  · split
    · and_intros <;> simp [loopConsume_frame]
    · and_intros <;>
        simp [loopTail_frame, loopDrain_frame, loopConsume_frame]

end MapReduceModel

namespace MapReduceModel

variable {K V Conn Acc E : Type}

/-! ### C9: empty input -/

/-- C9 — Empty input: for every token and every schedule, `run` with an
empty key sequence returns `Acc::default()` without invoking the
connection factory (`nConns = 0` invocations), the mapping function
(`mapCalls = 0`), or the reduce function (`reduceLog = []`). -/
theorem run_empty_keys [Inhabited Acc] (p : MRParams K V Conn Acc E)
    (hk : p.keys = []) (evs : List Sched) :
    (interp p evs).phase = Phase.done (Except.ok default) ∧
    (interp p evs).nConns = 0 ∧
    (interp p evs).mapCalls = 0 ∧
    (interp p evs).reduceLog = [] := by
  suffices h :
      (interp p evs).phase = Phase.done (Except.ok default) ∧
      (interp p evs).nConns = 0 ∧ (interp p evs).mapCalls = 0 ∧
      (interp p evs).reduceLog = [] ∧ (interp p evs).pending = [] ∧
      (interp p evs).workers = [] by
    exact ⟨h.1, h.2.1, h.2.2.1, h.2.2.2.1⟩
  unfold interp
  refine foldl_preserve
    (fun s : MRState K V Conn Acc E => s.phase = Phase.done (Except.ok default) ∧
      s.nConns = 0 ∧ s.mapCalls = 0 ∧ s.reduceLog = [] ∧ s.pending = [] ∧
      s.workers = []) ?_ evs _ ?_
  · rintro s ev ⟨h1, h2, h3, h4, h5, h6⟩
    cases ev with
    | conn j =>
        refine ⟨?_, ?_, ?_, ?_, ?_, ?_⟩ <;> simp [step, connStep, h1, h2, h3, h4, h5, h6]
    | claim w =>
        refine ⟨?_, ?_, ?_, ?_, ?_, ?_⟩ <;> simp [step, claimStep, h1, h2, h3, h4, h5, h6]
    | finishMap w =>
        refine ⟨?_, ?_, ?_, ?_, ?_, ?_⟩ <;> simp [step, finishMapStep, h1, h2, h3, h4, h5, h6]
    | send w =>
        refine ⟨?_, ?_, ?_, ?_, ?_, ?_⟩ <;> simp [step, sendStep, h1, h2, h3, h4, h5, h6]
    | orch =>
        refine ⟨?_, ?_, ?_, ?_, ?_, ?_⟩ <;> simp [step, orchStep, h1, h2, h3, h4, h5, h6]
  · simp [initState, hk]

end MapReduceModel

namespace MapReduceModel

variable {K V Conn Acc E : Type}

/-! ### Key-counter monotonicity and C6 -/

theorem claimStep_keyCounter_le (p : MRParams K V Conn Acc E) (s : MRState K V Conn Acc E)
    (w : ℕ) : s.keyCounter ≤ (claimStep p s w).keyCounter := by
  unfold claimStep
  (repeat' split) <;> simp

theorem step_keyCounter_le (p : MRParams K V Conn Acc E) (s : MRState K V Conn Acc E)
    (ev : Sched) : s.keyCounter ≤ (step p s ev).keyCounter := by
  cases ev with
  | conn j => simp [step, (connStep_frame p s j).1]
  | claim w => simpa [step] using claimStep_keyCounter_le p s w
  | finishMap w => simp [step, (finishMapStep_frame p s w).1]
  | send w => simp [step, (sendStep_frame p s w).1]
  | orch =>
      simp only [step]
      cases hp : s.phase with
      | awaitFirst => simp [orchStep, hp, (awaitFirstStep_frame p s).1]
      | loop => simp [orchStep, hp, (loopStep_frame p s).1]
      | joinPhase => simp [orchStep, hp, (joinStep_frame p s).1]
      | drainPhase => simp [orchStep, hp, (drainStep_frame p s).1]
      | done r => simp [orchStep, hp]

theorem interp_keyCounter_mono [Inhabited Acc] (p : MRParams K V Conn Acc E)
    (evs₁ evs₂ : List Sched) :
    (interp p evs₁).keyCounter ≤ (interp p (evs₁ ++ evs₂)).keyCounter := by
  rw [interp_append]
  refine foldl_preserve
    (fun s : MRState K V Conn Acc E => (interp p evs₁).keyCounter ≤ s.keyCounter)
    ?_ evs₂ _ le_rfl
  intro s ev h
  exact le_trans h (step_keyCounter_le p s ev)

/-- The claim-log invariant: the indices claimed in range are exactly
`0, 1, …, min key_counter (keys.len()) - 1`, in order. -/
theorem claimLog_range [Inhabited Acc] (p : MRParams K V Conn Acc E) (evs : List Sched) :
    (interp p evs).claimLog.map Prod.snd =
      List.range (min (interp p evs).keyCounter p.keys.length) := by
  unfold interp
  refine foldl_preserve
    (fun s : MRState K V Conn Acc E =>
      s.claimLog.map Prod.snd = List.range (min s.keyCounter p.keys.length))
    ?_ evs _ ?_
  · intro s ev hP
    cases ev with
    | conn j =>
        simpa [step, (connStep_frame p s j).1, (connStep_frame p s j).2.2.2.2.1] using hP
    | claim w =>
        simp only [step]
        unfold claimStep
        cases hw : s.workers.get? w with
        | none => simpa using hP
        | some st =>
            cases st with
            | ready c =>
                by_cases h : s.keyCounter < p.keys.length
                · have hmin : min s.keyCounter p.keys.length = s.keyCounter :=
                    min_eq_left (le_of_lt h)
                  have hmin' : min (s.keyCounter + 1) p.keys.length = s.keyCounter + 1 :=
                    min_eq_left h
                  simp [h, hP, hmin, hmin', List.range_succ]
                · have hle : p.keys.length ≤ s.keyCounter := le_of_not_lt h
                  have hmin : min s.keyCounter p.keys.length = p.keys.length :=
                    min_eq_right hle
                  have hmin' : min (s.keyCounter + 1) p.keys.length = p.keys.length :=
                    min_eq_right (le_trans hle (Nat.le_succ _))
                  simp [h, hP, hmin, hmin']
            | mapping i k c => simpa using hP
            | sending i k v c => simpa using hP
            | finished => simpa using hP
    | finishMap w =>
        simpa [step, (finishMapStep_frame p s w).1,
          (finishMapStep_frame p s w).2.2.2.2.2.2.2.2.2.1] using hP
    | send w =>
        simpa [step, (sendStep_frame p s w).1,
          (sendStep_frame p s w).2.2.2.2.2.2.2.2.2.2.2.1] using hP
    | orch =>
        simp only [step]
        cases hp : s.phase with
        | awaitFirst =>
            simpa [orchStep, hp, (awaitFirstStep_frame p s).1,
              (awaitFirstStep_frame p s).2.2.2.2.2.2.2.2.2.2.2.1] using hP
        | loop =>
            simpa [orchStep, hp, (loopStep_frame p s).1,
              (loopStep_frame p s).2.2.2.2.2.2.1] using hP
        | joinPhase =>
            simpa [orchStep, hp, (joinStep_frame p s).1,
              (joinStep_frame p s).2.2.2.2.2.2.2.2.2.2.2.2.2] using hP
        | drainPhase =>
            simpa [orchStep, hp, (drainStep_frame p s).1,
              (drainStep_frame p s).2.2.2.2.2.2.2.2.2.2.2.2] using hP
        | done r => simpa [orchStep, hp] using hP
  · simp only [initState]
    split
    · simp
    · split <;> simp

/-- C6 — Key-claim uniqueness: in every run (under any token, any factory
results, any schedule, including runs that end in cancellation or error),
the shared key counter only grows, and the in-range key claims performed
by the workers are exactly the indices `0 … min key_counter keys.len - 1`,
each claimed exactly once (the claim log maps onto `List.range`, which has
no duplicates). -/
theorem key_claim_uniqueness [Inhabited Acc] (p : MRParams K V Conn Acc E) :
    (∀ evs : List Sched,
      (interp p evs).claimLog.map Prod.snd =
        List.range (min (interp p evs).keyCounter p.keys.length) ∧
      ((interp p evs).claimLog.map Prod.snd).Nodup) ∧
    (∀ evs₁ evs₂ : List Sched,
      (interp p evs₁).keyCounter ≤ (interp p (evs₁ ++ evs₂)).keyCounter) := by
  refine ⟨fun evs => ⟨claimLog_range p evs, ?_⟩, fun evs₁ evs₂ => interp_keyCounter_mono p evs₁ evs₂⟩
  rw [claimLog_range p evs]
  exact List.nodup_range _

end MapReduceModel

namespace MapReduceModel

variable {K V Conn Acc E : Type}

/-! ### C3: connection bound -/

/-- A loop iteration either keeps `n_conns` or grows it by one, and it
grows only under the `n_conns < max_conns` guard. -/
theorem loopStep_nConns (p : MRParams K V Conn Acc E) (s : MRState K V Conn Acc E) :
    (loopStep p s).nConns = s.nConns ∨
      ((loopStep p s).nConns = s.nConns + 1 ∧ s.nConns < maxConns p) := by
  unfold loopStep
  split
  · exact Or.inl rfl
  · split
    · rename_i hgrow
      refine Or.inr ⟨?_, ?_⟩
      · simp [(loopConsume_frame p s).2.2.2.2.2.1]
      · have := hgrow.1
        rwa [(loopConsume_frame p s).2.2.2.2.2.1] at this
    · exact Or.inl (by
        simp [(loopTail_frame p _).2.2.2.2.2.1, (loopDrain_frame p _).2.2.2.2.2.1,
          (loopConsume_frame p s).2.2.2.2.2.1])

theorem step_nConns (p : MRParams K V Conn Acc E) (s : MRState K V Conn Acc E) (ev : Sched) :
    (step p s ev).nConns = s.nConns ∨
      ((step p s ev).nConns = s.nConns + 1 ∧ s.nConns < maxConns p) := by
  cases ev with
  | conn j => exact Or.inl (by simp [step, (connStep_frame p s j).2.2.2.2.2.2.2.2.1])
  | claim w => exact Or.inl (by simp [step, (claimStep_frame p s w).2.2.2.2.1])
  | finishMap w => exact Or.inl (by simp [step, (finishMapStep_frame p s w).2.2.2.1])
  | send w => exact Or.inl (by simp [step, (sendStep_frame p s w).2.2.2.2.2.1])
  | orch =>
      simp only [step]
      cases hp : s.phase with
      | awaitFirst => exact Or.inl (by simp [orchStep, hp, (awaitFirstStep_frame p s).2.2.2.2.2.1])
      | loop =>
          have := loopStep_nConns p s
          simpa [orchStep, hp] using this
      | joinPhase => exact Or.inl (by simp [orchStep, hp, (joinStep_frame p s).2.2.2.2.2.1])
      | drainPhase => exact Or.inl (by simp [orchStep, hp, (drainStep_frame p s).2.2.2.2.2.1])
      | done r => exact Or.inl (by simp [orchStep, hp])

/-- C3 — Connection bound: for every run with raw `max_connections = C`,
under any schedule, token and factory behavior, the total number of
connection-factory invocations started (`nConns` counts every
`new_connection_f` call, including the initial speculative ones, and hence
bounds the number mid-flight at any moment) never exceeds `max(C, 2)`, and
never exceeds the number of keys. -/
theorem connection_bound [Inhabited Acc] (p : MRParams K V Conn Acc E) (evs : List Sched) :
    (interp p evs).nConns ≤ max p.max_connections 2 ∧
    (interp p evs).nConns ≤ p.keys.length := by
  suffices h : (interp p evs).nConns ≤ maxConns p by
    exact ⟨le_trans h (min_le_right _ _), le_trans h (min_le_left _ _)⟩
  unfold interp
  refine foldl_preserve (fun s : MRState K V Conn Acc E => s.nConns ≤ maxConns p)
    ?_ evs _ ?_
  · intro s ev h
    rcases step_nConns p s ev with heq | ⟨heq, hlt⟩
    · rwa [heq]
    · rw [heq]; exact hlt
  · simp only [initState]
    split
    · simp
    · split
      · rename_i hmax
        simpa using hmax
      · rename_i hne hmax
        have h1 : 1 ≤ p.keys.length := by
          cases hl : p.keys with
          | nil => exact absurd (by simp [hl]) hne
          | cons a t => simp [hl]
        simp only [maxConns] at hmax ⊢
        have h2 : 1 ≤ max p.max_connections 2 := le_trans (by norm_num) (le_max_right _ _)
        simpa using le_min h1 h2

end MapReduceModel

namespace MapReduceModel

variable {K V Conn Acc E : Type}

/-! ### C2: adaptive growth heuristic -/

/-- Consuming a completed connection result does not change any input of
the growth decision. -/
theorem shouldGrow_loopConsume (p : MRParams K V Conn Acc E) (s : MRState K V Conn Acc E) :
    shouldGrow p (loopConsume p s) ↔ shouldGrow p s := by
  have hf := loopConsume_frame p s
  unfold shouldGrow growRatioHolds remaining_keys avg_task_time_us avg_conn_time_us
  rw [hf.1, hf.2.1, hf.2.2.1, hf.2.2.2.1, hf.2.2.2.2.1, hf.2.2.2.2.2.1]

theorem avg_conn_time_us_nonneg (s : MRState K V Conn Acc E) : 0 ≤ avg_conn_time_us s := by
  unfold avg_conn_time_us
  positivity

/-- With a zero cumulative task time, the heuristic comparison is false. -/
theorem growRatio_false_of_task_zero (p : MRParams K V Conn Acc E)
    (s : MRState K V Conn Acc E) (h : s.totalTaskTimeUs = 0) : ¬ growRatioHolds p s := by
  unfold growRatioHolds avg_task_time_us
  rw [h]
  simp only [Nat.cast_zero, zero_div, mul_zero]
  intro hc
  have hnn : (0:ℚ) ≤ avg_conn_time_us s * (3 / 2) :=
    mul_nonneg (avg_conn_time_us_nonneg s) (by norm_num)
  exact absurd hc (not_lt.mpr hnn)

theorem taskCount_zero_total [Inhabited Acc] (p : MRParams K V Conn Acc E) (evs : List Sched) :
    (interp p evs).taskCount = 0 → (interp p evs).totalTaskTimeUs = 0 := by
  unfold interp
  refine foldl_preserve
    (fun s : MRState K V Conn Acc E => s.taskCount = 0 → s.totalTaskTimeUs = 0)
    ?_ evs _ ?_
  · intro s ev hP
    cases ev with
    | conn j =>
        have hf := connStep_frame p s j
        simp only [step, hf.2.2.2.2.2.2.2.2.2.2.2.1, hf.2.2.2.2.2.2.2.2.2.2.2.2]
        exact hP
    | claim w =>
        have hf := claimStep_frame p s w
        simp only [step, hf.1, hf.2.1]
        exact hP
    | finishMap w =>
        simp only [step]
        unfold finishMapStep
        cases hw : s.workers.get? w with
        | none => simpa using hP
        | some st =>
            cases st with
            | mapping i k c => intro h; simp at h
            | ready c => simpa using hP
            | sending i k v c => simpa using hP
            | finished => simpa using hP
    | send w =>
        have hf := sendStep_frame p s w
        simp only [step, hf.2.1, hf.2.2.1]
        exact hP
    | orch =>
        simp only [step]
        cases hp : s.phase with
        | awaitFirst =>
            have hf := awaitFirstStep_frame p s
            simp only [orchStep, hp, hf.2.1, hf.2.2.1]
            exact hP
        | loop =>
            have hf := loopStep_frame p s
            simp only [orchStep, hp, hf.2.1, hf.2.2.1]
            exact hP
        | joinPhase =>
            have hf := joinStep_frame p s
            simp only [orchStep, hp, hf.2.1, hf.2.2.1]
            exact hP
        | drainPhase =>
            have hf := drainStep_frame p s
            simp only [orchStep, hp, hf.2.1, hf.2.2.1]
            exact hP
        | done r => simpa [orchStep, hp] using hP
  · simp only [initState]
    split
    · simp
    · split <;> simp

/-- C2 — Adaptive growth heuristic.  First conjunct: at the decision point
of a (non-blocked) scheduling-loop iteration, the executor starts exactly
one additional connection-factory call (`n_conns` grows by one) if and
only if `n_conns < max_conns` and
`(remaining_keys * avg_task_time_us) / n_conns > avg_conn_time_us * 1.5`,
where each average divides the cumulative-microseconds counter by
`max(count, 1)` (see `avg_task_time_us`/`avg_conn_time_us`).  Second
conjunct: in any reachable state with zero task samples the task average
is 0 and an orchestrator step opens no connection. -/
theorem growth_heuristic [Inhabited Acc] (p : MRParams K V Conn Acc E) :
    (∀ s : MRState K V Conn Acc E, s.phase = Phase.loop →
        ¬(s.connDone.isEmpty ∧ ¬ s.pending.isEmpty) →
        ((orchStep p s).nConns = s.nConns + 1 ↔
          s.nConns < maxConns p ∧ growRatioHolds p s)) ∧
    (∀ evs : List Sched, (interp p evs).taskCount = 0 →
        avg_task_time_us (interp p evs) = 0 ∧
        (step p (interp p evs) Sched.orch).nConns = (interp p evs).nConns) := by
  constructor
  · intro s hp hnb
    simp only [orchStep, hp]
    unfold loopStep
    rw [if_neg hnb]
    by_cases hg : shouldGrow p (loopConsume p s)
    · rw [if_pos hg]
      have hg' := (shouldGrow_loopConsume p s).mp hg
      constructor
      · intro _
        exact hg'
      · intro _
        simp [(loopConsume_frame p s).2.2.2.2.2.1]
    · rw [if_neg hg]
      have hne : (loopTail p (loopDrain p (loopConsume p s))).nConns = s.nConns := by
        simp [(loopTail_frame p _).2.2.2.2.2.1, (loopDrain_frame p _).2.2.2.2.2.1,
          (loopConsume_frame p s).2.2.2.2.2.1]
      rw [hne]
      constructor
      · intro habs
        exact absurd habs (Nat.ne_of_lt (Nat.lt_succ_self _))
      · intro hrhs
        exact absurd ((shouldGrow_loopConsume p s).mpr hrhs) hg
  · intro evs htask
    have htot := taskCount_zero_total p evs htask
    have havg : avg_task_time_us (interp p evs) = 0 := by
      unfold avg_task_time_us
      rw [htot]
      simp
    refine ⟨havg, ?_⟩
    set s := interp p evs with hs
    simp only [step]
    cases hp : s.phase with
    | awaitFirst => simp [orchStep, hp, (awaitFirstStep_frame p s).2.2.2.2.2.1]
    | loop =>
        simp only [orchStep, hp]
        unfold loopStep
        split
        · rfl
        · split
          · rename_i hg
            have := hg.2
            have hzero : (loopConsume p s).totalTaskTimeUs = 0 := by
              rw [(loopConsume_frame p s).2.2.1]; exact htot
            exact absurd this (growRatio_false_of_task_zero p _ hzero)
          · simp [(loopTail_frame p _).2.2.2.2.2.1, (loopDrain_frame p _).2.2.2.2.2.1,
              (loopConsume_frame p s).2.2.2.2.2.1]
    | joinPhase => simp [orchStep, hp, (joinStep_frame p s).2.2.2.2.2.1]
    | drainPhase => simp [orchStep, hp, (drainStep_frame p s).2.2.2.2.2.1]
    | done r => simp [orchStep, hp]

end MapReduceModel

namespace MapReduceModel

variable {K V Conn Acc E : Type}

/-! ### C5: first-connection failure is fatal -/

/-- C5 — First-connection failure: if both initial speculative
connection-factory invocations fail with error `ce` (so the first
connection result awaited at line 352 is necessarily `Err(ce)`), then
under every schedule `map_f` is never invoked, no worker is ever spawned,
and if `run` returns it returns exactly that error. -/
theorem first_connection_failure_fatal [Inhabited Acc] (p : MRParams K V Conn Acc E)
    (ce : Cancellable E) (h0 : p.connResult 0 = Except.error ce)
    (h1 : p.connResult 1 = Except.error ce) (hk : p.keys ≠ []) (evs : List Sched) :
    (interp p evs).mapCalls = 0 ∧ (interp p evs).workers = [] ∧
    (∀ r, (interp p evs).phase = Phase.done r → r = Except.error ce) := by
  suffices h :
      ((interp p evs).phase = Phase.awaitFirst ∨
        (interp p evs).phase = Phase.done (Except.error ce)) ∧
      (interp p evs).workers = [] ∧ (interp p evs).mapCalls = 0 ∧
      (∀ j ∈ (interp p evs).pending, j < 2) ∧
      (∀ r ∈ (interp p evs).connDone, r = Except.error ce) by
    refine ⟨h.2.2.1, h.2.1, ?_⟩
    intro r hr
    rcases h.1 with ha | hd
    · rw [ha] at hr; cases hr
    · rw [hd] at hr; cases hr; rfl
  unfold interp
  refine foldl_preserve
    (fun s : MRState K V Conn Acc E =>
      (s.phase = Phase.awaitFirst ∨ s.phase = Phase.done (Except.error ce)) ∧
      s.workers = [] ∧ s.mapCalls = 0 ∧ (∀ j ∈ s.pending, j < 2) ∧
      (∀ r ∈ s.connDone, r = Except.error ce))
    ?_ evs _ ?_
  · rintro s ev ⟨hph, hw, hm, hpend, hcd⟩
    cases ev with
    | conn j =>
        simp only [step]
        unfold connStep
        by_cases hj : j ∈ s.pending
        · have hj2 : j < 2 := hpend j hj
          have hres : p.connResult j = Except.error ce := by
            have hj01 : j = 0 ∨ j = 1 := by omega
            rcases hj01 with h | h
            · rw [h]; exact h0
            · rw [h]; exact h1
          rw [if_pos hj, hres]
          refine ⟨hph, hw, hm, ?_, ?_⟩
          · intro j' hj'
            exact hpend j' (List.mem_of_mem_erase hj')
          · intro r hr
            rcases List.mem_append.mp hr with h | h
            · exact hcd r h
            · simpa using h
        · rw [if_neg hj]
          exact ⟨hph, hw, hm, hpend, hcd⟩
    | claim w =>
        simp only [step]
        unfold claimStep
        rw [hw]
        simpa using ⟨hph, hw, hm, hpend, hcd⟩
    | finishMap w =>
        simp only [step]
        unfold finishMapStep
        rw [hw]
        simpa using ⟨hph, hw, hm, hpend, hcd⟩
    | send w =>
        simp only [step]
        unfold sendStep
        rw [hw]
        simpa using ⟨hph, hw, hm, hpend, hcd⟩
    | orch =>
        simp only [step]
        rcases hph with ha | hd
        · simp only [orchStep, ha]
          unfold awaitFirstStep
          cases hc : s.connDone with
          | nil =>
              simp only [hc]
              exact ⟨Or.inl ha, hw, hm, hpend, by simp⟩
          | cons r rest =>
              have hr : r = Except.error ce := hcd r (by rw [hc]; exact List.mem_cons_self _ _)
              simp only [hc, hr]
              refine ⟨Or.inr trivial, hw, hm, hpend, ?_⟩
              intro r' hr'
              exact hcd r' (by rw [hc]; exact List.mem_cons_of_mem _ hr')
        · simp only [orchStep, hd]
          exact ⟨Or.inr trivial, hw, hm, hpend, hcd⟩
  · simp only [initState]
    rw [if_neg (by simpa using hk)]
    split <;> simp
end MapReduceModel


namespace MapReduceModel

variable {K V Conn Acc E : Type}

/-! ### Phase-transition characterizations -/

theorem Phase.isDone_iff (ph : Phase Acc E) : ph.isDone = true ↔ ∃ r, ph = Phase.done r := by
  cases ph <;> simp [Phase.isDone]

/-- No-op step when no worker occupies slot `w`. -/
theorem claimStep_nil (p : MRParams K V Conn Acc E) (s : MRState K V Conn Acc E) (w : ℕ)
    (h : s.workers = []) : claimStep p s w = s := by
  unfold claimStep
  rw [h]
  rfl

theorem finishMapStep_nil (p : MRParams K V Conn Acc E) (s : MRState K V Conn Acc E) (w : ℕ)
    (h : s.workers = []) : finishMapStep p s w = s := by
  unfold finishMapStep
  rw [h]
  rfl

theorem sendStep_nil (p : MRParams K V Conn Acc E) (s : MRState K V Conn Acc E) (w : ℕ)
    (h : s.workers = []) : sendStep p s w = s := by
  unfold sendStep
  rw [h]
  rfl

theorem claimStep_workers_length (p : MRParams K V Conn Acc E) (s : MRState K V Conn Acc E)
    (w : ℕ) : (claimStep p s w).workers.length = s.workers.length := by
  unfold claimStep
  (repeat' split) <;> simp

theorem finishMapStep_workers_length (p : MRParams K V Conn Acc E) (s : MRState K V Conn Acc E)
    (w : ℕ) : (finishMapStep p s w).workers.length = s.workers.length := by
  unfold finishMapStep
  (repeat' split) <;> simp

theorem sendStep_workers_length (p : MRParams K V Conn Acc E) (s : MRState K V Conn Acc E)
    (w : ℕ) : (sendStep p s w).workers.length = s.workers.length := by
  unfold sendStep
  (repeat' split) <;> simp

theorem loopConsume_workers_le (p : MRParams K V Conn Acc E) (s : MRState K V Conn Acc E) :
    s.workers.length ≤ (loopConsume p s).workers.length := by
  unfold loopConsume
  (repeat' split) <;> simp

theorem awaitFirstStep_workers_le (p : MRParams K V Conn Acc E) (s : MRState K V Conn Acc E) :
    s.workers.length ≤ (awaitFirstStep p s).workers.length := by
  unfold awaitFirstStep
  (repeat' split) <;> simp

theorem loopStep_workers_le (p : MRParams K V Conn Acc E) (s : MRState K V Conn Acc E) :
    s.workers.length ≤ (loopStep p s).workers.length := by
  unfold loopStep
  split
  · exact le_rfl
  · split
    · simpa using loopConsume_workers_le p s
    · calc s.workers.length ≤ (loopConsume p s).workers.length :=
            loopConsume_workers_le p s
        _ = (loopTail p (loopDrain p (loopConsume p s))).workers.length := by
            rw [(loopTail_frame p _).2.2.2.2.2.2.2.2.1, (loopDrain_frame p _).2.2.2.2.2.2.2.2.1]

/-- Where the orchestrator can go from `awaitFirst`. -/
theorem awaitFirstStep_phase (p : MRParams K V Conn Acc E) (s : MRState K V Conn Acc E) :
    awaitFirstStep p s = s ∨
    (∃ e, (awaitFirstStep p s).phase = Phase.done (Except.error e)) ∨
    (awaitFirstStep p s).phase = Phase.loop ∨
    ((awaitFirstStep p s).phase = Phase.joinPhase ∧
      p.keys.length ≤ (awaitFirstStep p s).keyCounter) := by
  unfold awaitFirstStep
  cases hc : s.connDone with
  | nil => exact Or.inl rfl
  | cons r rest =>
      cases r with
      | error e => exact Or.inr (Or.inl ⟨e, rfl⟩)
      | ok c =>
          by_cases h : s.keyCounter < p.keys.length
          · exact Or.inr (Or.inr (Or.inl (by simp [h])))
          · refine Or.inr (Or.inr (Or.inr ⟨by simp [h], ?_⟩))
            simpa using le_of_not_lt h

theorem loopDrain_phase (p : MRParams K V Conn Acc E) (s : MRState K V Conn Acc E) :
    (loopDrain p s).phase = s.phase ∨
    ∃ err, (loopDrain p s).phase = Phase.done (Except.error err) := by
  unfold loopDrain
  split
  · exact Or.inl rfl
  · obtain ⟨l₁, l₂, -, -, hcase⟩ := reduceMany_log p
      ((List.take (min s.nConns s.chan.length) s.chan).reverse)
      { s with chan := List.drop (min s.nConns s.chan.length) s.chan }
    rcases hcase with ⟨hsame, -⟩ | ⟨err, hdone⟩
    · exact Or.inl hsame
    · exact Or.inr ⟨err, hdone⟩

/-- Where the orchestrator can go in one scheduling-loop iteration. -/
theorem loopStep_phase (p : MRParams K V Conn Acc E) (s : MRState K V Conn Acc E) :
    loopStep p s = s ∨
    (∃ r, (loopStep p s).phase = Phase.done r) ∨
    (loopStep p s).phase = Phase.loop ∨
    ((loopStep p s).phase = Phase.joinPhase ∧
      p.keys.length ≤ (loopStep p s).keyCounter) := by
  unfold loopStep
  split
  · exact Or.inl rfl
  · split
    · -- grow branch
      by_cases h : (loopConsume p s).keyCounter < p.keys.length
      · exact Or.inr (Or.inr (Or.inl (by simp [h])))
      · refine Or.inr (Or.inr (Or.inr ⟨by simp [h], ?_⟩))
        simpa using le_of_not_lt h
    · -- non-grow branch
      unfold loopTail
      split
      · rename_i hdone
        obtain ⟨r, hr⟩ := (Phase.isDone_iff _).mp hdone
        exact Or.inr (Or.inl ⟨r, hr⟩)
      · split
        · exact Or.inr (Or.inl ⟨_, rfl⟩)
        · by_cases h : (loopDrain p (loopConsume p s)).keyCounter < p.keys.length
          · exact Or.inr (Or.inr (Or.inl (by simp [h])))
          · refine Or.inr (Or.inr (Or.inr ⟨by simp [h], ?_⟩))
            simp only []
            rw [(loopDrain_frame p _).1]
            rw [(loopDrain_frame p _).1] at h
            simpa using le_of_not_lt h

/-- Where the orchestrator can go in one join-loop iteration. -/
theorem joinStep_phase (p : MRParams K V Conn Acc E) (s : MRState K V Conn Acc E) :
    (joinStep p s).phase = s.phase ∨
    (joinStep p s).phase = Phase.drainPhase ∨
    (joinStep p s).phase = Phase.done (Except.error Cancellable.cancelled) := by
  unfold joinStep
  (repeat' split) <;> simp

/-- Where the orchestrator can go in one final-drain iteration. -/
theorem drainStep_phase (p : MRParams K V Conn Acc E) (s : MRState K V Conn Acc E) :
    (drainStep p s).phase = s.phase ∨ ∃ r, (drainStep p s).phase = Phase.done r := by
  unfold drainStep
  split
  · exact Or.inr ⟨_, rfl⟩
  · unfold drainTail
    split
    · rename_i hdone
      obtain ⟨r, hr⟩ := (Phase.isDone_iff _).mp hdone
      exact Or.inr ⟨r, hr⟩
    · split
      · exact Or.inr ⟨_, rfl⟩
      · obtain ⟨l₁, l₂, -, -, hcase⟩ := reduceMany_log p
          ((List.take (min s.nConns s.chan.length) s.chan).reverse)
          { s with chan := List.drop (min s.nConns s.chan.length) s.chan }
        rcases hcase with ⟨hsame, -⟩ | ⟨err, hdone⟩
        · exact Or.inl hsame
        · exact Or.inr ⟨_, hdone⟩

end MapReduceModel

namespace MapReduceModel

variable {K V Conn Acc E : Type}

/-! ### Phase discipline of reachable states -/

/-- Reachable-state phase discipline: while the orchestrator awaits the
first connection no worker exists and no key is claimed; a claimed key
implies a worker exists; `joined` stays 0 until the join phase; the join
and final-drain phases are only entered once every key is claimed. -/
theorem phase_inv [Inhabited Acc] (p : MRParams K V Conn Acc E) (evs : List Sched) :
    ((interp p evs).phase = Phase.awaitFirst →
      (interp p evs).workers = [] ∧ (interp p evs).keyCounter = 0) ∧
    ((interp p evs).workers = [] → (interp p evs).keyCounter = 0) ∧
    (((interp p evs).phase = Phase.awaitFirst ∨ (interp p evs).phase = Phase.loop) →
      (interp p evs).joined = 0) ∧
    (((interp p evs).phase = Phase.joinPhase ∨ (interp p evs).phase = Phase.drainPhase) →
      p.keys.length ≤ (interp p evs).keyCounter) := by
  unfold interp
  refine foldl_preserve
    (fun s : MRState K V Conn Acc E =>
      (s.phase = Phase.awaitFirst → s.workers = [] ∧ s.keyCounter = 0) ∧
      (s.workers = [] → s.keyCounter = 0) ∧
      ((s.phase = Phase.awaitFirst ∨ s.phase = Phase.loop) → s.joined = 0) ∧
      ((s.phase = Phase.joinPhase ∨ s.phase = Phase.drainPhase) →
        p.keys.length ≤ s.keyCounter))
    ?_ evs _ ?_
  · rintro s ev ⟨h1, h2, h3, h4⟩
    have core : ∀ t : MRState K V Conn Acc E,
        t.phase = s.phase → t.workers.length = s.workers.length →
        s.keyCounter ≤ t.keyCounter → (t.workers = [] → t.keyCounter = 0) →
        t.joined = s.joined →
        (t.phase = Phase.awaitFirst → t.workers = [] ∧ t.keyCounter = 0) ∧
        (t.workers = [] → t.keyCounter = 0) ∧
        ((t.phase = Phase.awaitFirst ∨ t.phase = Phase.loop) → t.joined = 0) ∧
        ((t.phase = Phase.joinPhase ∨ t.phase = Phase.drainPhase) →
          p.keys.length ≤ t.keyCounter) := by
      intro t hph hwl hkc hnil hj
      refine ⟨?_, hnil, ?_, ?_⟩
      · intro ha
        rw [hph] at ha
        obtain ⟨hw0, hk0⟩ := h1 ha
        have ht : t.workers = [] := by
          apply List.eq_nil_of_length_eq_zero
          rw [hwl, hw0]
          rfl
        exact ⟨ht, hnil ht⟩
      · intro ha
        rw [hph] at ha
        rw [hj]
        exact h3 ha
      · intro ha
        rw [hph] at ha
        exact le_trans (h4 ha) hkc
    cases ev with
    | conn j =>
        have hf := connStep_frame p s j
        refine core _ ?_ ?_ ?_ ?_ ?_
        · simp [step, hf.2.2.2.2.2.1]
        · simp [step, hf.2.1]
        · simp [step, hf.1]
        · intro hw
          simp only [step] at hw ⊢
          rw [hf.1]
          rw [hf.2.1] at hw
          exact h2 hw
        · simp [step, hf.2.2.2.2.2.2.2.2.2.2.1]
    | claim w =>
        by_cases hnil : s.workers = []
        · rw [show step p s (Sched.claim w) =
              { s with clock := s.clock + 1 } by simp [step, claimStep_nil p s w hnil]]
          exact ⟨fun h => ⟨hnil, h2 hnil⟩, fun _ => h2 hnil, h3, h4⟩
        · have hf := claimStep_frame p s w
          refine core _ ?_ ?_ ?_ ?_ ?_
          · simp [step, hf.2.2.2.2.2.2.2.2.2.2.2.1]
          · simp [step, claimStep_workers_length]
          · simpa [step] using claimStep_keyCounter_le p s w
          · intro hw
            exfalso
            apply hnil
            have := claimStep_workers_length p s w
            have hlen : (step p s (Sched.claim w)).workers.length = s.workers.length := by
              simpa [step] using this
            rw [hw] at hlen
            exact List.eq_nil_of_length_eq_zero hlen.symm
          · simp [step, hf.2.2.2.2.2.2.2.2.2.2.2.2]
    | finishMap w =>
        by_cases hnil : s.workers = []
        · rw [show step p s (Sched.finishMap w) =
              { s with clock := s.clock + 1 } by simp [step, finishMapStep_nil p s w hnil]]
          exact ⟨fun h => ⟨hnil, h2 hnil⟩, fun _ => h2 hnil, h3, h4⟩
        · have hf := finishMapStep_frame p s w
          refine core _ ?_ ?_ ?_ ?_ ?_
          · simp [step, hf.2.2.2.2.2.2.2.2.2.2.1]
          · simp [step, finishMapStep_workers_length]
          · simp [step, hf.1]
          · intro hw
            exfalso
            apply hnil
            have := finishMapStep_workers_length p s w
            have hlen : (step p s (Sched.finishMap w)).workers.length = s.workers.length := by
              simpa [step] using this
            rw [hw] at hlen
            exact List.eq_nil_of_length_eq_zero hlen.symm
          · simp [step, hf.2.2.2.2.2.2.2.2.2.2.2.2]
    | send w =>
        by_cases hnil : s.workers = []
        · rw [show step p s (Sched.send w) =
              { s with clock := s.clock + 1 } by simp [step, sendStep_nil p s w hnil]]
          exact ⟨fun h => ⟨hnil, h2 hnil⟩, fun _ => h2 hnil, h3, h4⟩
        · have hf := sendStep_frame p s w
          refine core _ ?_ ?_ ?_ ?_ ?_
          · simp [step, hf.2.2.2.2.2.2.2.2.2.2.2.2.1]
          · simp [step, sendStep_workers_length]
          · simp [step, hf.1]
          · intro hw
            exfalso
            apply hnil
            have := sendStep_workers_length p s w
            have hlen : (step p s (Sched.send w)).workers.length = s.workers.length := by
              simpa [step] using this
            rw [hw] at hlen
            exact List.eq_nil_of_length_eq_zero hlen.symm
          · simp [step, hf.2.2.2.2.2.2.2.2.2.2.2.2.2]
    | orch =>
        have hclk : ∀ t : MRState K V Conn Acc E,
            (t.phase = Phase.awaitFirst → t.workers = [] ∧ t.keyCounter = 0) ∧
            (t.workers = [] → t.keyCounter = 0) ∧
            ((t.phase = Phase.awaitFirst ∨ t.phase = Phase.loop) → t.joined = 0) ∧
            ((t.phase = Phase.joinPhase ∨ t.phase = Phase.drainPhase) →
              p.keys.length ≤ t.keyCounter) →
            ((({ t with clock := s.clock + 1 } : MRState K V Conn Acc E).phase =
                Phase.awaitFirst →
              ({ t with clock := s.clock + 1 } : MRState K V Conn Acc E).workers = [] ∧
              ({ t with clock := s.clock + 1 } : MRState K V Conn Acc E).keyCounter = 0) ∧
            (({ t with clock := s.clock + 1 } : MRState K V Conn Acc E).workers = [] →
              ({ t with clock := s.clock + 1 } : MRState K V Conn Acc E).keyCounter = 0) ∧
            ((({ t with clock := s.clock + 1 } : MRState K V Conn Acc E).phase =
                  Phase.awaitFirst ∨
                ({ t with clock := s.clock + 1 } : MRState K V Conn Acc E).phase =
                  Phase.loop) →
              ({ t with clock := s.clock + 1 } : MRState K V Conn Acc E).joined = 0) ∧
            ((({ t with clock := s.clock + 1 } : MRState K V Conn Acc E).phase =
                  Phase.joinPhase ∨
                ({ t with clock := s.clock + 1 } : MRState K V Conn Acc E).phase =
                  Phase.drainPhase) →
              p.keys.length ≤
                ({ t with clock := s.clock + 1 } : MRState K V Conn Acc E).keyCounter)) := by
          intro t ht
          exact ht
        cases hp : s.phase with
        | awaitFirst =>
            have hs := h1 hp
            have hkc0 : ∀ t : MRState K V Conn Acc E, t.keyCounter = s.keyCounter →
                t.keyCounter = 0 := fun t h => h.trans hs.2
            simp only [step, orchStep, hp]
            apply hclk
            have hf := awaitFirstStep_frame p s
            rcases awaitFirstStep_phase p s with heq | ⟨e, hph⟩ | hph | ⟨hph, hle⟩
            · rw [heq]
              exact ⟨h1, h2, h3, h4⟩
            · refine ⟨?_, ?_, ?_, ?_⟩
              · intro ha
                rw [hph] at ha
                cases ha
              · intro _
                exact hkc0 _ hf.1
              · intro ha
                rcases ha with ha | ha <;> (rw [hph] at ha; cases ha)
              · intro ha
                rcases ha with ha | ha <;> (rw [hph] at ha; cases ha)
            · refine ⟨?_, ?_, ?_, ?_⟩
              · intro ha
                rw [hph] at ha
                cases ha
              · intro _
                exact hkc0 _ hf.1
              · intro _
                rw [hf.2.2.2.2.2.2.2.2.2.2.2.2.2]
                exact h3 (Or.inl hp)
              · intro ha
                rcases ha with ha | ha <;> (rw [hph] at ha; cases ha)
            · refine ⟨?_, ?_, ?_, ?_⟩
              · intro ha
                rw [hph] at ha
                cases ha
              · intro _
                exact hkc0 _ hf.1
              · intro ha
                rcases ha with ha | ha <;> (rw [hph] at ha; cases ha)
              · intro _
                exact hle
        | loop =>
            simp only [step, orchStep, hp]
            apply hclk
            have hf := loopStep_frame p s
            have hwnil : (loopStep p s).workers = [] → (loopStep p s).keyCounter = 0 := by
              intro hw
              have hlen := loopStep_workers_le p s
              rw [hw] at hlen
              have : s.workers = [] :=
                List.eq_nil_of_length_eq_zero (Nat.le_zero.mp (by simpa using hlen))
              rw [hf.1]
              exact h2 this
            rcases loopStep_phase p s with heq | ⟨r, hph⟩ | hph | ⟨hph, hle⟩
            · rw [heq]
              exact ⟨h1, h2, h3, h4⟩
            · refine ⟨?_, hwnil, ?_, ?_⟩
              · intro ha
                rw [hph] at ha
                cases ha
              · intro ha
                rcases ha with ha | ha <;> (rw [hph] at ha; cases ha)
              · intro ha
                rcases ha with ha | ha <;> (rw [hph] at ha; cases ha)
            · refine ⟨?_, hwnil, ?_, ?_⟩
              · intro ha
                rw [hph] at ha
                cases ha
              · intro _
                rw [hf.2.2.2.2.2.2.2.2]
                exact h3 (Or.inr hp)
              · intro ha
                rcases ha with ha | ha <;> (rw [hph] at ha; cases ha)
            · refine ⟨?_, hwnil, ?_, ?_⟩
              · intro ha
                rw [hph] at ha
                cases ha
              · intro ha
                rcases ha with ha | ha <;> (rw [hph] at ha; cases ha)
              · intro _
                exact hle
        | joinPhase =>
            simp only [step, orchStep, hp]
            apply hclk
            have hf := joinStep_frame p s
            have hwnil : (joinStep p s).workers = [] → (joinStep p s).keyCounter = 0 := by
              intro hw
              rw [hf.2.2.2.2.2.2.2.2.1] at hw
              rw [hf.1]
              exact h2 hw
            rcases joinStep_phase p s with hph | hph | hph
            · rw [hp] at hph
              refine ⟨?_, hwnil, ?_, ?_⟩
              · intro ha
                rw [hph] at ha
                cases ha
              · intro ha
                rcases ha with ha | ha <;> (rw [hph] at ha; cases ha)
              · intro _
                rw [hf.1]
                exact h4 (Or.inl hp)
            · refine ⟨?_, hwnil, ?_, ?_⟩
              · intro ha
                rw [hph] at ha
                cases ha
              · intro ha
                rcases ha with ha | ha <;> (rw [hph] at ha; cases ha)
              · intro _
                rw [hf.1]
                exact h4 (Or.inl hp)
            · refine ⟨?_, hwnil, ?_, ?_⟩
              · intro ha
                rw [hph] at ha
                cases ha
              · intro ha
                rcases ha with ha | ha <;> (rw [hph] at ha; cases ha)
              · intro ha
                rcases ha with ha | ha <;> (rw [hph] at ha; cases ha)
        | drainPhase =>
            simp only [step, orchStep, hp]
            apply hclk
            have hf := drainStep_frame p s
            have hwnil : (drainStep p s).workers = [] → (drainStep p s).keyCounter = 0 := by
              intro hw
              rw [hf.2.2.2.2.2.2.2.2.1] at hw
              rw [hf.1]
              exact h2 hw
            rcases drainStep_phase p s with hph | ⟨r, hph⟩
            · rw [hp] at hph
              refine ⟨?_, hwnil, ?_, ?_⟩
              · intro ha
                rw [hph] at ha
                cases ha
              · intro ha
                rcases ha with ha | ha <;> (rw [hph] at ha; cases ha)
              · intro _
                rw [hf.1]
                exact h4 (Or.inr hp)
            · refine ⟨?_, hwnil, ?_, ?_⟩
              · intro ha
                rw [hph] at ha
                cases ha
              · intro ha
                rcases ha with ha | ha <;> (rw [hph] at ha; cases ha)
              · intro ha
                rcases ha with ha | ha <;> (rw [hph] at ha; cases ha)
        | done r =>
            simp only [step, orchStep, hp]
            refine ⟨?_, h2, ?_, ?_⟩
            · intro h
              cases h
            · rintro (h | h) <;> cases h
            · rintro (h | h) <;> cases h
  · simp only [initState]
    split
    · simp
    · split <;> simp

end MapReduceModel

namespace MapReduceModel

variable {K V Conn Acc E : Type}

/-! ### C4: cancellation behavior -/

theorem isCancelled_mono (p : MRParams K V Conn Acc E) {c c' : ℕ}
    (h : isCancelled p c = true) (hle : c ≤ c') : isCancelled p c' = true := by
  unfold isCancelled at h ⊢
  revert h
  cases p.cancelAt with
  | none =>
      intro h
      cases h
  | some t =>
      intro h
      simp only [decide_eq_true_eq] at h ⊢
      exact le_trans h hle

/-- Once `do_run` has returned, its result and the reduce log are frozen
(the orchestrator is absorbed; late workers fail their sends without
reducing anything). -/
theorem step_done (p : MRParams K V Conn Acc E) (s : MRState K V Conn Acc E)
    (r : Except (Cancellable E) Acc) (hd : s.phase = Phase.done r) (ev : Sched) :
    (step p s ev).phase = Phase.done r ∧ (step p s ev).reduceLog = s.reduceLog := by
  cases ev with
  | conn j =>
      have hf := connStep_frame p s j
      simp [step, hf.2.2.2.1, hf.2.2.2.2.2.1, hd]
  | claim w =>
      have hf := claimStep_frame p s w
      simp [step, hf.2.2.2.2.2.2.2.2.1, hf.2.2.2.2.2.2.2.2.2.2.2.1, hd]
  | finishMap w =>
      have hf := finishMapStep_frame p s w
      simp [step, hf.2.2.2.2.2.2.2.1, hf.2.2.2.2.2.2.2.2.2.2.1, hd]
  | send w =>
      have hf := sendStep_frame p s w
      simp [step, hf.2.2.2.2.2.2.2.2.1, hf.2.2.2.2.2.2.2.2.2.2.2.2.1, hd]
  | orch => simp [step, orchStep, hd]

theorem interp_done_frozen [Inhabited Acc] (p : MRParams K V Conn Acc E)
    (evs₁ evs₂ : List Sched) (r : Except (Cancellable E) Acc)
    (hd : (interp p evs₁).phase = Phase.done r) :
    (interp p (evs₁ ++ evs₂)).phase = Phase.done r ∧
    (interp p (evs₁ ++ evs₂)).reduceLog = (interp p evs₁).reduceLog := by
  rw [interp_append]
  refine foldl_preserve
    (fun s : MRState K V Conn Acc E =>
      s.phase = Phase.done r ∧ s.reduceLog = (interp p evs₁).reduceLog)
    ?_ evs₂ _ ⟨hd, rfl⟩
  rintro s ev ⟨h1, h2⟩
  obtain ⟨ha, hb⟩ := step_done p s r h1 ev
  exact ⟨ha, hb.trans h2⟩

/-- `loopDrain` keeps the phase when `reduce_f` never fails. -/
theorem loopDrain_phase_ok (p : MRParams K V Conn Acc E)
    (hred : ∀ a k v, ∃ a', p.reducef a k v = Except.ok a')
    (s : MRState K V Conn Acc E) : (loopDrain p s).phase = s.phase := by
  unfold loopDrain
  split
  · rfl
  · exact (reduceMany_ok p hred _ _).1

/-- After the token is cancelled, a mid-loop run can only end in the
cancellation error: the orchestrator is either still in its scheduling
loop (with no worker joined yet), or in the join phase with an unjoined
worker (so the next join returns the cancellation), or already done with
the cancellation error. -/
theorem cancelled_invariant [Inhabited Acc] (p : MRParams K V Conn Acc E)
    (hred : ∀ a k v, ∃ a', p.reducef a k v = Except.ok a')
    (s₀ : MRState K V Conn Acc E)
    (h₀ : isCancelled p s₀.clock = true ∧
      (s₀.phase = Phase.loop ∧ s₀.joined = 0 ∧ s₀.workers ≠ [] ∨
        s₀.phase = Phase.joinPhase ∧ s₀.joined < s₀.workers.length ∨
        s₀.phase = Phase.done (Except.error Cancellable.cancelled)))
    (evs : List Sched) :
    isCancelled p (evs.foldl (step p) s₀).clock = true ∧
      ((evs.foldl (step p) s₀).phase = Phase.loop ∧
          (evs.foldl (step p) s₀).joined = 0 ∧ (evs.foldl (step p) s₀).workers ≠ [] ∨
        (evs.foldl (step p) s₀).phase = Phase.joinPhase ∧
          (evs.foldl (step p) s₀).joined < (evs.foldl (step p) s₀).workers.length ∨
        (evs.foldl (step p) s₀).phase = Phase.done (Except.error Cancellable.cancelled)) := by
  refine foldl_preserve
    (fun s : MRState K V Conn Acc E =>
      isCancelled p s.clock = true ∧
      (s.phase = Phase.loop ∧ s.joined = 0 ∧ s.workers ≠ [] ∨
        s.phase = Phase.joinPhase ∧ s.joined < s.workers.length ∨
        s.phase = Phase.done (Except.error Cancellable.cancelled)))
    ?_ evs s₀ h₀
  rintro s ev ⟨hc, hdisj⟩
  have hclk : (step p s ev).clock = s.clock + 1 := by simp [step]
  refine ⟨by rw [hclk]; exact isCancelled_mono p hc (Nat.le_succ _), ?_⟩
  have hwne : ∀ t : MRState K V Conn Acc E, t.workers.length = s.workers.length →
      s.workers ≠ [] → t.workers ≠ [] := by
    intro t hlen hne hnil
    rw [hnil] at hlen
    exact hne (List.eq_nil_of_length_eq_zero hlen.symm)
  cases ev with
  | conn j =>
      have hf := connStep_frame p s j
      rcases hdisj with ⟨h1, h2, h3⟩ | ⟨h1, h2⟩ | h1
      · refine Or.inl ⟨?_, ?_, ?_⟩ <;>
          simp [step, hf.2.2.2.2.2.1, hf.2.1, hf.2.2.2.2.2.2.2.2.2.2.1, h1, h2, h3]
      · refine Or.inr (Or.inl ⟨?_, ?_⟩) <;>
          simp [step, hf.2.2.2.2.2.1, hf.2.1, hf.2.2.2.2.2.2.2.2.2.2.1, h1, h2]
      · exact Or.inr (Or.inr (by simp [step, hf.2.2.2.2.2.1, h1]))
  | claim w =>
      have hf := claimStep_frame p s w
      have hlen := claimStep_workers_length p s w
      rcases hdisj with ⟨h1, h2, h3⟩ | ⟨h1, h2⟩ | h1
      · refine Or.inl ⟨?_, ?_, ?_⟩
        · simp [step, hf.2.2.2.2.2.2.2.2.2.2.2.1, h1]
        · simp [step, hf.2.2.2.2.2.2.2.2.2.2.2.2, h2]
        · simp only [step]
          exact hwne _ hlen h3
      · refine Or.inr (Or.inl ⟨?_, ?_⟩)
        · simp [step, hf.2.2.2.2.2.2.2.2.2.2.2.1, h1]
        · simp only [step]
          rw [hf.2.2.2.2.2.2.2.2.2.2.2.2, hlen]
          exact h2
      · exact Or.inr (Or.inr (by simp [step, hf.2.2.2.2.2.2.2.2.2.2.2.1, h1]))
  | finishMap w =>
      have hf := finishMapStep_frame p s w
      have hlen := finishMapStep_workers_length p s w
      rcases hdisj with ⟨h1, h2, h3⟩ | ⟨h1, h2⟩ | h1
      · refine Or.inl ⟨?_, ?_, ?_⟩
        · simp [step, hf.2.2.2.2.2.2.2.2.2.2.1, h1]
        · simp [step, hf.2.2.2.2.2.2.2.2.2.2.2.2, h2]
        · simp only [step]
          exact hwne _ hlen h3
      · refine Or.inr (Or.inl ⟨?_, ?_⟩)
        · simp [step, hf.2.2.2.2.2.2.2.2.2.2.1, h1]
        · simp only [step]
          rw [hf.2.2.2.2.2.2.2.2.2.2.2.2, hlen]
          exact h2
      · exact Or.inr (Or.inr (by simp [step, hf.2.2.2.2.2.2.2.2.2.2.1, h1]))
  | send w =>
      have hf := sendStep_frame p s w
      have hlen := sendStep_workers_length p s w
      rcases hdisj with ⟨h1, h2, h3⟩ | ⟨h1, h2⟩ | h1
      · refine Or.inl ⟨?_, ?_, ?_⟩
        · simp [step, hf.2.2.2.2.2.2.2.2.2.2.2.2.1, h1]
        · simp [step, hf.2.2.2.2.2.2.2.2.2.2.2.2.2, h2]
        · simp only [step]
          exact hwne _ hlen h3
      · refine Or.inr (Or.inl ⟨?_, ?_⟩)
        · simp [step, hf.2.2.2.2.2.2.2.2.2.2.2.2.1, h1]
        · simp only [step]
          rw [hf.2.2.2.2.2.2.2.2.2.2.2.2.2, hlen]
          exact h2
      · exact Or.inr (Or.inr (by simp [step, hf.2.2.2.2.2.2.2.2.2.2.2.2.1, h1]))
  | orch =>
      rcases hdisj with ⟨h1, h2, h3⟩ | ⟨h1, h2⟩ | h1
      · -- scheduling loop with token cancelled
        simp only [step, orchStep, h1]
        unfold loopStep
        split
        · exact Or.inl ⟨by simp [h1], by simp [h2], by simpa using h3⟩
        · split
          · -- grow: still no check; at the while re-evaluation
            have hfc := loopConsume_frame p s
            have hwl := loopConsume_workers_le p s
            by_cases hkc : (loopConsume p s).keyCounter < p.keys.length
            · refine Or.inl ⟨by simp [hkc], by simp [hfc.2.2.2.2.2.2.2.2.2.2.2.2.2.2.1, h2], ?_⟩
              simp only []
              intro hnil
              rw [hnil] at hwl
              exact h3 (List.eq_nil_of_length_eq_zero (Nat.le_zero.mp (by simpa using hwl)))
            · refine Or.inr (Or.inl ⟨by simp [hkc], ?_⟩)
              simp only [hfc.2.2.2.2.2.2.2.2.2.2.2.2.2.2.1]
              rw [h2]
              have : 0 < s.workers.length := List.length_pos.mpr h3
              exact lt_of_lt_of_le this (by simpa using hwl)
          · -- non-grow: the drain is followed by the token check
            have hph2 : (loopDrain p (loopConsume p s)).phase = s.phase := by
              rw [loopDrain_phase_ok p hred, (loopConsume_frame p s).2.2.2.2.2.2.2.2.2.2.2.2.1]
            have hclk2 : (loopDrain p (loopConsume p s)).clock = s.clock := by
              rw [(loopDrain_frame p _).2.2.2.2.2.2.2.2.2.2.2.2.2,
                (loopConsume_frame p s).2.2.2.2.2.2.2.2.2.2.2.2.2.2.2.2]
            unfold loopTail
            rw [hph2, h1]
            simp only [Phase.isDone, Bool.false_eq_true, if_false]
            rw [hclk2, hc]
            simp only [if_true]
            exact Or.inr (Or.inr (by simp))
      · -- join phase with an unjoined worker
        simp only [step, orchStep, h1]
        unfold joinStep
        cases hq : s.finishedQueue with
        | nil =>
            have hne : ¬ s.joined = s.workers.length := Nat.ne_of_lt h2
            rw [if_neg hne]
            exact Or.inr (Or.inl ⟨by simp [h1], by simpa using h2⟩)
        | cons b rest =>
            cases b with
            | true =>
                simp only [if_true, hc]
                exact Or.inr (Or.inr (by simp))
            | false =>
                simp only [Bool.false_eq_true, if_false]
                exact Or.inr (Or.inr (by simp))
      · simp only [step, orchStep, h1]
        exact Or.inr (Or.inr (by simp [h1]))

end MapReduceModel

namespace MapReduceModel

variable {K V Conn Acc E : Type}

/-- C4 (amended) — Cancellation outcome: if the token is cancelled mid-run
(some but not all keys claimed, `run` not yet returned) and `reduce_f`
never fails, then (a) whenever `run` returns under any continuation of the
schedule, it returns the cancellation-tagged error; (b) once `run` has
returned, its result and the reduce log are frozen, so no key claimed
after the orchestrator observed the cancellation is ever reduced into the
accumulator; (c) each worker checks the token after each successful send
and exits with the cancellation error.  (The orchestrator checks the token
at the end of each non-growing loop iteration only: an iteration that
opens a new connection skips the check via `continue`, see the
counterexample `cancellation_check_skipped_on_grow`.) -/
theorem run_cancellation_behavior [Inhabited Acc] (p : MRParams K V Conn Acc E)
    (hred : ∀ a k v, ∃ a', p.reducef a k v = Except.ok a') (evs₁ : List Sched)
    (hcanc : isCancelled p (interp p evs₁).clock = true)
    (hpos : 0 < (interp p evs₁).keyCounter)
    (hlt : (interp p evs₁).keyCounter < p.keys.length)
    (hnd : (interp p evs₁).phase.isDone = false) :
    (∀ evs₂ : List Sched, (interp p (evs₁ ++ evs₂)).phase.isDone = true →
      (interp p (evs₁ ++ evs₂)).phase =
        Phase.done (Except.error Cancellable.cancelled)) ∧
    (∀ (evs₁' evs₂' : List Sched) (r : Except (Cancellable E) Acc),
      (interp p evs₁').phase = Phase.done r →
      (interp p (evs₁' ++ evs₂')).phase = Phase.done r ∧
      (interp p (evs₁' ++ evs₂')).reduceLog = (interp p evs₁').reduceLog) ∧
    (∀ (s : MRState K V Conn Acc E) (w i : ℕ) (k : K) (v : V) (c : Conn),
      s.workers.get? w = some (WStat.sending i k v c) →
      s.phase.isDone = false → isCancelled p s.clock = true →
      (sendStep p s w).finishedQueue = s.finishedQueue ++ [false]) := by
  obtain ⟨h1, h2, h3, h4⟩ := phase_inv p evs₁
  have hloop : (interp p evs₁).phase = Phase.loop := by
    cases hp : (interp p evs₁).phase with
    | awaitFirst =>
        have := (h1 hp).2
        omega
    | loop => rfl
    | joinPhase =>
        have := h4 (Or.inl hp)
        omega
    | drainPhase =>
        have := h4 (Or.inr hp)
        omega
    | done r =>
        rw [hp] at hnd
        simp [Phase.isDone] at hnd
  have hjoin : (interp p evs₁).joined = 0 := h3 (Or.inr hloop)
  have hwne : (interp p evs₁).workers ≠ [] := by
    intro hnil
    have := h2 hnil
    omega
  refine ⟨?_, ?_, ?_⟩
  · intro evs₂ hdone
    obtain ⟨r, hr⟩ := (Phase.isDone_iff _).mp hdone
    have hinv := cancelled_invariant p hred (interp p evs₁)
      ⟨hcanc, Or.inl ⟨hloop, hjoin, hwne⟩⟩ evs₂
    rw [← interp_append] at hinv
    rcases hinv.2 with ⟨ha, -⟩ | ⟨ha, -⟩ | ha
    · rw [hr] at ha
      cases ha
    · rw [hr] at ha
      cases ha
    · exact ha
  · intro evs₁' evs₂' r hd
    exact interp_done_frozen p evs₁' evs₂' r hd
  · intro s w i k v c hw hd hc
    unfold sendStep
    rw [hw]
    simp only [hd, Bool.false_eq_true, if_false, hc, if_true]

/-! ### Concrete executions for C4 and C10 -/

/-- Concrete run used for the C4 counterexample and witness: three keys,
`max_connections = 5`, instant connections, 1000 µs tasks, and a token
cancelled from clock tick 3.  Under the schedule `exC4Evs` the first task
completes (making `avg_task_time_us` large) and then a second connection
result is delivered, so the next orchestrator iteration takes the growth
branch. -/
def exC4P : MRParams ℕ ℕ ℕ ℕ ℕ :=
  { keys := [10, 20, 30], max_connections := 5,
    connResult := fun _ => Except.ok 0, connTimeUs := fun _ => 0,
    mapf := fun c k => (k * k, c), taskTimeUs := fun _ => 1000,
    reducef := fun a _ v => Except.ok (a + v), cancelAt := some 3 }

def exC4Evs : List Sched :=
  [Sched.conn 0, Sched.orch, Sched.claim 0, Sched.finishMap 0, Sched.conn 1]

/-- A schedule continuation under which the `exC4P` run terminates after
the cancellation. -/
def exC4Done : List Sched :=
  [Sched.orch, Sched.send 0, Sched.conn 2, Sched.orch]

/-- C4 counterexample — the claim "the orchestrator checks the token after
each drain/grow iteration" (returning the cancellation error immediately
when cancelled) is false on the code: in the reachable state
`interp exC4P exC4Evs` the token has been cancelled for two ticks, the
orchestrator runs a full (non-blocked) scheduling-loop iteration, and —
because that iteration takes the growth branch, whose `continue` skips
`token.check_cancellation()` — it starts one more connection-factory call
and goes on looping instead of returning the cancellation error. -/
theorem cancellation_check_skipped_on_grow :
    isCancelled exC4P (interp exC4P exC4Evs).clock = true ∧
    (interp exC4P exC4Evs).phase = Phase.loop ∧
    ¬((interp exC4P exC4Evs).connDone.isEmpty ∧
      ¬(interp exC4P exC4Evs).pending.isEmpty) ∧
    (step exC4P (interp exC4P exC4Evs) Sched.orch).nConns =
      (interp exC4P exC4Evs).nConns + 1 ∧
    (step exC4P (interp exC4P exC4Evs) Sched.orch).phase = Phase.loop := by
  decide

/-- Witness for `run_cancellation_behavior` at a concrete mid-run
cancelled state. -/
theorem run_cancellation_behavior_witness :
    ((∀ a k v, ∃ a', exC4P.reducef a k v = Except.ok a') ∧
      isCancelled exC4P (interp exC4P exC4Evs).clock = true ∧
      0 < (interp exC4P exC4Evs).keyCounter ∧
      (interp exC4P exC4Evs).keyCounter < exC4P.keys.length ∧
      (interp exC4P exC4Evs).phase.isDone = false) ∧
    (interp exC4P (exC4Evs ++ exC4Done)).phase =
      Phase.done (Except.error Cancellable.cancelled) := by
  refine ⟨⟨fun a k v => ⟨a + v, rfl⟩, by decide, by decide, by decide, by decide⟩, ?_⟩
  exact (run_cancellation_behavior exC4P (fun a k v => ⟨a + v, rfl⟩) exC4Evs
    (by decide) (by decide) (by decide) (by decide)).1 exC4Done (by decide)

/-- Concrete one-key run for C10, cancelled at clock tick 6: the single
key is claimed, mapped and sent, the worker exits cleanly, but the
orchestrator's token re-check after joining the worker observes the
cancellation, so `run` returns the cancellation error and the sent value
is discarded (never reduced). -/
def exC10aP : MRParams ℕ ℕ ℕ ℕ ℕ :=
  { keys := [5], max_connections := 3,
    connResult := fun _ => Except.ok 0, connTimeUs := fun _ => 0,
    mapf := fun c k => (k * k, c), taskTimeUs := fun _ => 1000,
    reducef := fun a _ v => Except.ok (a + v), cancelAt := some 6 }

/-- Same run cancelled at clock tick 8: the orchestrator joins the worker
before the cancellation, reduces the final batch, and then the token
re-check after that batch observes the cancellation — the reduced
accumulator is discarded and the cancellation error returned. -/
def exC10bP : MRParams ℕ ℕ ℕ ℕ ℕ :=
  { exC10aP with cancelAt := some 8 }

def exC10aEvs : List Sched :=
  [Sched.conn 0, Sched.orch, Sched.claim 0, Sched.orch, Sched.finishMap 0,
   Sched.send 0, Sched.claim 0, Sched.orch]

def exC10bEvs : List Sched := exC10aEvs ++ [Sched.orch, Sched.orch]

/-- C10 — `run` can return the cancellation error even after every key has
been claimed, mapped and sent.  Two concrete executions: in the first, the
token re-check after joining the (cleanly finished) worker observes the
cancellation and the sent value is discarded without ever being reduced;
in the second, the re-check after draining the final batch observes it,
and the already-reduced accumulator is discarded with the error. -/
theorem cancellation_after_all_keys_sent :
    ((interp exC10aP exC10aEvs).phase =
        Phase.done (Except.error Cancellable.cancelled) ∧
      (interp exC10aP exC10aEvs).keyCounter = 2 ∧
      (interp exC10aP exC10aEvs).mapCalls = 1 ∧
      (interp exC10aP exC10aEvs).chan = [⟨0, 5, 25⟩] ∧
      (interp exC10aP exC10aEvs).finishedQueue = [] ∧
      (interp exC10aP exC10aEvs).joined = 1 ∧
      (interp exC10aP exC10aEvs).reduceLog = []) ∧
    ((interp exC10bP exC10bEvs).phase =
        Phase.done (Except.error Cancellable.cancelled) ∧
      (interp exC10bP exC10bEvs).keyCounter = 2 ∧
      (interp exC10bP exC10bEvs).mapCalls = 1 ∧
      (interp exC10bP exC10bEvs).reduceLog = [⟨0, 5, 25⟩] ∧
      (interp exC10bP exC10bEvs).acc = 25) := by
  decide

end MapReduceModel

namespace MapReduceModel

variable {K V Conn Acc E : Type}

/-! ### Pool bookkeeping for the completeness invariant -/

/-- The key index a worker currently holds (claimed but not yet sent). -/
def widx : WStat K V Conn → Option ℕ
  | .mapping i _ _ => some i
  | .sending i _ _ _ => some i
  | _ => none

/-- Every claimed in-range key index lives in exactly one of three pools:
held by a worker, buffered in the channel, or already reduced. -/
def poolIdx (s : MRState K V Conn Acc E) : List ℕ :=
  s.workers.filterMap widx ++ s.chan.map Entry.idx ++ s.reduceLog.map Entry.idx

theorem perm_swap_ends {β : Type _} (x m y : List β) : (x ++ m ++ y).Perm (y ++ m ++ x) := by
  have h1 : ((x ++ m) ++ y).Perm (y ++ (x ++ m)) := List.perm_append_comm
  have h2 : (y ++ (x ++ m)).Perm (y ++ (m ++ x)) :=
    List.Perm.append_left y List.perm_append_comm
  have h3 : (y ++ (m ++ x)).Perm (y ++ m ++ x) := by
    rw [List.append_assoc]
  exact (h1.trans h2).trans h3

/-- Replacing one element of a list shifts its `filterMap` contribution. -/
theorem filterMap_set {α β : Type _} (f : α → Option β) :
    ∀ (l : List α) (w : ℕ) (old new : α), l.get? w = some old →
      ((l.set w new).filterMap f ++ (f old).toList).Perm
        (l.filterMap f ++ (f new).toList) := by
  intro l
  induction l with
  | nil => intro w old new h; simp at h
  | cons a t ih =>
      intro w old new h
      cases w with
      | zero =>
          simp only [List.get?] at h
          cases h
          simp only [List.set]
          cases hn : f new <;> cases ho : f a <;>
            simp only [List.filterMap_cons, hn, ho, Option.toList]
          · simp
          · simpa using List.perm_append_comm
          · rename_i bn
            simpa using (@List.perm_append_comm _ [bn] (t.filterMap f))
          · rename_i b bn
            simpa using perm_swap_ends [b] (t.filterMap f) [bn]
      | succ w =>
          simp only [List.get?] at h
          simp only [List.set]
          cases ha : f a <;> simp only [List.filterMap_cons, ha]
          · exact ih w old new h
          · rename_i b
            have := ih w old new h
            simpa using this.cons b

/-- A `filterMap` that is `some` everywhere is a `map`. -/
theorem filterMap_congr_map {α β : Type _} (gm : α → Option β) (m : α → β) :
    ∀ l : List α, (∀ a ∈ l, gm a = some (m a)) → l.filterMap gm = l.map m := by
  intro l
  induction l with
  | nil => intro _; rfl
  | cons a t ih =>
      intro h
      simp only [List.filterMap_cons, h a (List.mem_cons_self a t), List.map_cons]
      rw [ih (fun x hx => h x (List.mem_cons_of_mem a hx))]

/-- Looking every index of `l` up in `l` and mapping recovers `l.map h`. -/
theorem range_filterMap_get {α β : Type _} (h : α → β) :
    ∀ l : List α,
      (List.range l.length).filterMap (fun i => (l.get? i).map h) = l.map h := by
  intro l
  induction l with
  | nil => rfl
  | cons a t ih =>
      simp only [List.length_cons, List.range_succ_eq_map, List.filterMap_cons,
        List.get?, Option.map_some, List.filterMap_map]
      rw [List.map_cons]
      congr 1
      have heq : (fun i => ((a :: t).get? i).map h) ∘ Nat.succ =
          fun i => (t.get? i).map h := by
        funext i
        rfl
      rw [heq, ih]
      simp

/-- Replacing one element shifts the length of a `filter`. -/
theorem filter_set_length {α : Type _} (q : α → Bool) :
    ∀ (l : List α) (w : ℕ) (old new : α), l.get? w = some old →
      ((l.set w new).filter q).length + (if q old then 1 else 0) =
        (l.filter q).length + (if q new then 1 else 0) := by
  intro l
  induction l with
  | nil => intro w old new h; simp at h
  | cons a t ih =>
      intro w old new h
      cases w with
      | zero =>
          simp only [List.get?] at h
          cases h
          simp only [List.set]
          cases hn : q new <;> cases ho : q a <;>
            (simp [List.filter_cons, hn, ho]; try omega)
      | succ w =>
          simp only [List.get?] at h
          have hih := ih w old new h
          simp only [List.set]
          cases ha : q a
          · simpa [List.filter_cons, ha] using hih
          · simp [List.filter_cons, ha]
            omega

theorem all_finished_of_filter_length {α : Type _} (q : α → Bool) :
    ∀ l : List α, (l.filter q).length = l.length → ∀ a ∈ l, q a = true := by
  intro l
  induction l with
  | nil => intro _ a ha; simp at ha
  | cons x t ih =>
      intro h a ha
      cases hx : q x with
      | true =>
          rcases List.mem_cons.mp ha with rfl | ha'
          · exact hx
          · refine ih ?_ a ha'
            simp only [List.filter_cons, hx, if_true, List.length_cons] at h
            omega
      | false =>
          exfalso
          have hle := List.length_filter_le q t
          simp [List.filter_cons, hx] at h
          omega

end MapReduceModel

namespace MapReduceModel

variable {K V Conn Acc E : Type}

theorem mem_of_mem_set {α : Type _} :
    ∀ (l : List α) (w : ℕ) (new x : α), x ∈ l.set w new → x ∈ l ∨ x = new := by
  intro l
  induction l with
  | nil => intro w new x hx; simp at hx
  | cons a t ih =>
      intro w new x hx
      cases w with
      | zero =>
          rcases List.mem_cons.mp hx with rfl | hx'
          · exact Or.inr rfl
          · exact Or.inl (List.mem_cons_of_mem a hx')
      | succ w =>
          rcases List.mem_cons.mp hx with rfl | hx'
          · exact Or.inl (List.mem_cons_self _ _)
          · rcases ih w new x hx' with h | h
            · exact Or.inl (List.mem_cons_of_mem a h)
            · exact Or.inr h

theorem phase_ne_done_of_isDone_false {ph : Phase Acc E} (h : ph.isDone = false) :
    ∀ r, ph ≠ Phase.done r := by
  intro r hr
  rw [hr] at h
  cases h

/-- The completeness invariant of a run: every in-range claimed index is
in exactly one pool (held by a worker, buffered, or reduced); every pooled
entry carries the key at its index and the value `map_f` computed for it;
the accumulator is the fold of the reduce log; bookkeeping for the join
and drain phases. -/
structure MInv [Inhabited Acc] (p : MRParams K V Conn Acc E) (f : K → V)
    (g : Acc → K → V → Acc) (s : MRState K V Conn Acc E) : Prop where
  pools : s.phase.isDone = false →
    (poolIdx s).Perm (List.range (min s.keyCounter p.keys.length))
  doneIdx : ∀ a, s.phase = Phase.done (Except.ok a) →
    (s.reduceLog.map Entry.idx).Perm (List.range p.keys.length)
  accFold : s.acc = s.reduceLog.foldl (fun b e => g b e.key e.val) default
  doneAcc : ∀ a, s.phase = Phase.done (Except.ok a) →
    a = s.reduceLog.foldl (fun b e => g b e.key e.val) default
  entries : ∀ e ∈ s.chan ++ s.reduceLog, p.keys.get? e.idx = some e.key ∧ e.val = f e.key
  wentries : ∀ ws ∈ s.workers,
    (∀ i k c, ws = WStat.mapping i k c → p.keys.get? i = some k) ∧
    (∀ i k v c, ws = WStat.sending i k v c → p.keys.get? i = some k ∧ v = f k)
  drainFin : s.phase = Phase.drainPhase → ∀ ws ∈ s.workers, ws = WStat.finished
  joinedFin : s.joined + s.finishedQueue.length =
    (s.workers.filter (fun ws => ws.isFinished)).length
  joinKc : (s.phase = Phase.joinPhase ∨ s.phase = Phase.drainPhase) →
    p.keys.length ≤ s.keyCounter

/-- Transport of `MInv` along equality of the relevant fields. -/
theorem MInv_congr [Inhabited Acc] {p : MRParams K V Conn Acc E} {f : K → V}
    {g : Acc → K → V → Acc} {s t : MRState K V Conn Acc E}
    (hw : t.workers = s.workers) (hc : t.chan = s.chan)
    (hl : t.reduceLog = s.reduceLog) (hph : t.phase = s.phase) (hacc : t.acc = s.acc)
    (hkc : t.keyCounter = s.keyCounter) (hfq : t.finishedQueue = s.finishedQueue)
    (hj : t.joined = s.joined) (h : MInv p f g s) : MInv p f g t := by
  constructor
  · intro hd
    rw [hph] at hd
    have := h.pools hd
    unfold poolIdx
    rw [hw, hc, hl, hkc]
    exact this
  · intro a ha
    rw [hph] at ha
    rw [hl]
    exact h.doneIdx a ha
  · rw [hacc, hl]
    exact h.accFold
  · intro a ha
    rw [hph] at ha
    rw [hl]
    exact h.doneAcc a ha
  · rw [hc, hl]
    exact h.entries
  · rw [hw]
    exact h.wentries
  · intro hd
    rw [hph] at hd
    rw [hw]
    exact h.drainFin hd
  · rw [hj, hfq, hw]
    exact h.joinedFin
  · intro hd
    rw [hph] at hd
    rw [hkc]
    exact h.joinKc hd

section Master

variable [Inhabited Acc] (p : MRParams K V Conn Acc E) (f : K → V) (g : Acc → K → V → Acc)

/-- `reduceMany` keeps the invariant: the batch's indices move from the
(generalized) pool into the reduce log one by one. -/
theorem MInv_reduceMany
    (hred : ∀ a k v, p.reducef a k v = Except.ok (g a k v)) :
    ∀ (l : List (Entry K V)) (s : MRState K V Conn Acc E),
      s.phase.isDone = false →
      ((poolIdx s ++ l.map Entry.idx).Perm
        (List.range (min s.keyCounter p.keys.length))) →
      (∀ e ∈ l, p.keys.get? e.idx = some e.key ∧ e.val = f e.key) →
      s.acc = s.reduceLog.foldl (fun b e => g b e.key e.val) default →
      (∀ e ∈ s.chan ++ s.reduceLog, p.keys.get? e.idx = some e.key ∧ e.val = f e.key) →
      (∀ ws ∈ s.workers,
        (∀ i k c, ws = WStat.mapping i k c → p.keys.get? i = some k) ∧
        (∀ i k v c, ws = WStat.sending i k v c → p.keys.get? i = some k ∧ v = f k)) →
      (s.phase = Phase.drainPhase → ∀ ws ∈ s.workers, ws = WStat.finished) →
      (s.joined + s.finishedQueue.length =
        (s.workers.filter (fun ws => ws.isFinished)).length) →
      ((s.phase = Phase.joinPhase ∨ s.phase = Phase.drainPhase) →
        p.keys.length ≤ s.keyCounter) →
      MInv p f g (reduceMany p s l) ∧ (reduceMany p s l).phase = s.phase := by
  intro l
  induction l with
  | nil =>
      intro s hnd hpool hents haccf hentsc hwents hdf hjf hjkc
      refine ⟨?_, rfl⟩
      constructor
      · intro _
        simpa using hpool
      · intro a ha
        exact absurd ha (phase_ne_done_of_isDone_false hnd _)
      · exact haccf
      · intro a ha
        exact absurd ha (phase_ne_done_of_isDone_false hnd _)
      · exact hentsc
      · exact hwents
      · exact hdf
      · exact hjf
      · exact hjkc
  | cons e rest ih =>
      intro s hnd hpool hents haccf hentsc hwents hdf hjf hjkc
      simp only [reduceMany, hred s.acc e.key e.val]
      refine ih { s with acc := g s.acc e.key e.val, reduceLog := s.reduceLog ++ [e] }
        hnd ?_ (fun x hx => hents x (List.mem_cons_of_mem e hx)) ?_ ?_ hwents hdf hjf hjkc
      · rw [List.perm_iff_count]
        intro a
        have hp := hpool.count_eq a
        unfold poolIdx at hp ⊢
        simp only [List.count_append, List.map_append, List.map_cons, List.map_nil,
          List.count_cons, List.count_nil] at hp ⊢
        omega
      · simp only [haccf, List.foldl_append, List.foldl_cons, List.foldl_nil]
      · intro x hx
        simp only [List.append_assoc] at hx
        rcases List.mem_append.mp hx with hx' | hx'
        · exact hentsc x (List.mem_append.mpr (Or.inl hx'))
        · rcases List.mem_append.mp hx' with hx'' | hx''
          · exact hentsc x (List.mem_append.mpr (Or.inr hx''))
          · rcases List.mem_singleton.mp hx'' with rfl
            exact hents x (List.mem_cons_self _ _)

end Master

end MapReduceModel

namespace MapReduceModel

variable {K V Conn Acc E : Type}

section MasterSteps

variable [Inhabited Acc] (p : MRParams K V Conn Acc E) (f : K → V) (g : Acc → K → V → Acc)

theorem MInv_connStep {s : MRState K V Conn Acc E} (h : MInv p f g s) (j : ℕ) :
    MInv p f g (connStep p s j) := by
  have hf := connStep_frame p s j
  exact MInv_congr hf.2.1 hf.2.2.1 hf.2.2.2.1 hf.2.2.2.2.2.1 hf.2.2.2.2.2.2.1 hf.1
    hf.2.2.2.2.2.2.2.2.2.1 hf.2.2.2.2.2.2.2.2.2.2.1 h

theorem MInv_claimStep {s : MRState K V Conn Acc E} (h : MInv p f g s) (w : ℕ) :
    MInv p f g (claimStep p s w) := by
  unfold claimStep
  cases hw : s.workers.get? w with
  | none => exact h
  | some st =>
      cases st with
      | mapping i k c => exact h
      | sending i k v c => exact h
      | finished => exact h
      | ready conn =>
          have hmem : WStat.ready conn ∈ s.workers := List.get?_mem hw
          by_cases hkc : s.keyCounter < p.keys.length
          · simp only [dif_pos hkc]
            have hset := filterMap_set widx s.workers w (WStat.ready conn)
              (WStat.mapping s.keyCounter (p.keys.get ⟨s.keyCounter, hkc⟩) conn) hw
            have hfl := filter_set_length (fun ws => ws.isFinished) s.workers w
              (WStat.ready conn)
              (WStat.mapping s.keyCounter (p.keys.get ⟨s.keyCounter, hkc⟩) conn) hw
            constructor
            · intro hd
              have hp := (h.pools hd).count_eq
              rw [List.perm_iff_count]
              intro a
              have hs := hset.count_eq a
              have hmin : min s.keyCounter p.keys.length = s.keyCounter :=
                min_eq_left (le_of_lt hkc)
              have hmin' : min (s.keyCounter + 1) p.keys.length = s.keyCounter + 1 :=
                min_eq_left hkc
              have hrange : List.range (s.keyCounter + 1) =
                  List.range s.keyCounter ++ [s.keyCounter] := List.range_succ s.keyCounter
              have hp' := hp a
              unfold poolIdx at hp' ⊢
              rw [hmin] at hp'
              rw [hmin', hrange]
              simp only [List.count_append, widx, Option.toList, List.count_cons,
                List.count_nil] at hs hp' ⊢
              omega
            · intro a ha
              exact h.doneIdx a ha
            · exact h.accFold
            · intro a ha
              exact h.doneAcc a ha
            · exact h.entries
            · intro ws hws
              rcases mem_of_mem_set _ _ _ _ hws with hws' | rfl
              · exact h.wentries ws hws'
              · constructor
                · intro i k c heq
                  cases heq
                  exact List.get?_eq_get hkc
                · intro i k v c heq
                  cases heq
            · intro hd
              exact absurd (h.drainFin hd _ hmem) (by intro hcon; cases hcon)
            · have hfl' : ((s.workers.set w
                  (WStat.mapping s.keyCounter (p.keys.get ⟨s.keyCounter, hkc⟩) conn)).filter
                    (fun ws => ws.isFinished)).length =
                  (s.workers.filter (fun ws => ws.isFinished)).length := by
                simpa [WStat.isFinished] using hfl
              show s.joined + s.finishedQueue.length =
                ((s.workers.set w
                  (WStat.mapping s.keyCounter (p.keys.get ⟨s.keyCounter, hkc⟩) conn)).filter
                    (fun ws => ws.isFinished)).length
              rw [hfl']
              exact h.joinedFin
            · intro hd
              exact le_trans (h.joinKc hd) (Nat.le_succ _)
          · simp only [dif_neg hkc]
            have hset := filterMap_set widx s.workers w (WStat.ready conn)
              WStat.finished hw
            have hfl := filter_set_length (fun ws => ws.isFinished) s.workers w
              (WStat.ready conn) WStat.finished hw
            constructor
            · intro hd
              have hp := (h.pools hd).count_eq
              rw [List.perm_iff_count]
              intro a
              have hs := hset.count_eq a
              have hmin : min s.keyCounter p.keys.length = p.keys.length :=
                min_eq_right (le_of_not_lt hkc)
              have hmin' : min (s.keyCounter + 1) p.keys.length = p.keys.length :=
                min_eq_right (le_trans (le_of_not_lt hkc) (Nat.le_succ _))
              have hp' := hp a
              unfold poolIdx at hp' ⊢
              rw [hmin] at hp'
              rw [hmin']
              simp only [List.count_append, widx, Option.toList, List.count_nil] at hs hp' ⊢
              omega
            · intro a ha
              exact h.doneIdx a ha
            · exact h.accFold
            · intro a ha
              exact h.doneAcc a ha
            · exact h.entries
            · intro ws hws
              rcases mem_of_mem_set _ _ _ _ hws with hws' | rfl
              · exact h.wentries ws hws'
              · exact ⟨fun i k c heq => (nomatch heq), fun i k v c heq => (nomatch heq)⟩
            · intro hd
              exact absurd (h.drainFin hd _ hmem) (by intro hcon; cases hcon)
            · have hfl' : ((s.workers.set w WStat.finished).filter
                  (fun ws => ws.isFinished)).length =
                  (s.workers.filter (fun ws => ws.isFinished)).length + 1 := by
                simpa [WStat.isFinished] using hfl
              have hj := h.joinedFin
              show s.joined + (s.finishedQueue ++ [true]).length =
                ((s.workers.set w WStat.finished).filter (fun ws => ws.isFinished)).length
              rw [hfl', List.length_append]
              simp only [List.length_cons, List.length_nil]
              omega
            · intro hd
              exact le_trans (h.joinKc hd) (Nat.le_succ _)

theorem MInv_finishMapStep {s : MRState K V Conn Acc E}
    (hmap : ∀ c k, (p.mapf c k).1 = f k)
    (h : MInv p f g s) (w : ℕ) : MInv p f g (finishMapStep p s w) := by
  unfold finishMapStep
  cases hw : s.workers.get? w with
  | none => exact h
  | some st =>
      cases st with
      | ready c => exact h
      | sending i k v c => exact h
      | finished => exact h
      | mapping i k conn =>
          have hmem : WStat.mapping i k conn ∈ s.workers := List.get?_mem hw
          have hset := filterMap_set widx s.workers w (WStat.mapping i k conn)
            (WStat.sending i k (p.mapf conn k).1 (p.mapf conn k).2) hw
          have hfl := filter_set_length (fun ws => ws.isFinished) s.workers w
            (WStat.mapping i k conn)
            (WStat.sending i k (p.mapf conn k).1 (p.mapf conn k).2) hw
          constructor
          · intro hd
            have hp := (h.pools hd).count_eq
            rw [List.perm_iff_count]
            intro a
            have hs := hset.count_eq a
            have hp' := hp a
            unfold poolIdx at hp' ⊢
            simp only [List.count_append, widx, Option.toList, List.count_cons,
              List.count_nil] at hs hp' ⊢
            omega
          · intro a ha
            exact h.doneIdx a ha
          · exact h.accFold
          · intro a ha
            exact h.doneAcc a ha
          · exact h.entries
          · intro ws hws
            rcases mem_of_mem_set _ _ _ _ hws with hws' | rfl
            · exact h.wentries ws hws'
            · constructor
              · intro i' k' c' heq
                cases heq
              · intro i' k' v' c' heq
                cases heq
                exact ⟨(h.wentries _ hmem).1 i k conn rfl, hmap conn k⟩
          · intro hd
            exact absurd (h.drainFin hd _ hmem) (by intro hcon; cases hcon)
          · have hfl' : ((s.workers.set w
                (WStat.sending i k (p.mapf conn k).1 (p.mapf conn k).2)).filter
                  (fun ws => ws.isFinished)).length =
                (s.workers.filter (fun ws => ws.isFinished)).length := by
              simpa [WStat.isFinished] using hfl
            show s.joined + s.finishedQueue.length =
              ((s.workers.set w
                (WStat.sending i k (p.mapf conn k).1 (p.mapf conn k).2)).filter
                  (fun ws => ws.isFinished)).length
            rw [hfl']
            exact h.joinedFin
          · exact h.joinKc

theorem MInv_sendStep {s : MRState K V Conn Acc E} (h : MInv p f g s) (w : ℕ) :
    MInv p f g (sendStep p s w) := by
  unfold sendStep
  cases hw : s.workers.get? w with
  | none => exact h
  | some st =>
      cases st with
      | ready c => exact h
      | mapping i k c => exact h
      | finished => exact h
      | sending i k v conn =>
          have hmem : WStat.sending i k v conn ∈ s.workers := List.get?_mem hw
          have hent : p.keys.get? i = some k ∧ v = f k :=
            (h.wentries _ hmem).2 i k v conn rfl
          by_cases hd : s.phase.isDone
          · simp only [hd, if_true]
            have hfl := filter_set_length (fun ws => ws.isFinished) s.workers w
              (WStat.sending i k v conn) WStat.finished hw
            have hfl' : ((s.workers.set w WStat.finished).filter
                (fun ws => ws.isFinished)).length =
                (s.workers.filter (fun ws => ws.isFinished)).length + 1 := by
              simpa [WStat.isFinished] using hfl
            constructor
            · intro hnd
              have hnd' : s.phase.isDone = false := hnd
              rw [hnd'] at hd
              cases hd
            · intro a ha
              exact h.doneIdx a ha
            · exact h.accFold
            · intro a ha
              exact h.doneAcc a ha
            · exact h.entries
            · intro ws hws
              rcases mem_of_mem_set _ _ _ _ hws with hws' | rfl
              · exact h.wentries ws hws'
              · exact ⟨fun i' k' c' heq => (nomatch heq), fun i' k' v' c' heq => (nomatch heq)⟩
            · intro hdr
              have hdr' : s.phase = Phase.drainPhase := hdr
              rw [hdr'] at hd
              simp [Phase.isDone] at hd
            · have hj := h.joinedFin
              show s.joined + (s.finishedQueue ++ [false]).length =
                ((s.workers.set w WStat.finished).filter (fun ws => ws.isFinished)).length
              rw [hfl', List.length_append]
              simp only [List.length_cons, List.length_nil]
              omega
            · exact h.joinKc
          · rw [Bool.not_eq_true] at hd
            simp only [hd, Bool.false_eq_true, if_false]
            have hcommon : ∀ x : Entry K V,
                (x ∈ s.chan ∨ x = Entry.mk i k v ∨ x ∈ s.reduceLog) →
                p.keys.get? x.idx = some x.key ∧ x.val = f x.key := by
              intro x hx
              rcases hx with hx' | rfl | hx'
              · exact h.entries x (List.mem_append.mpr (Or.inl hx'))
              · exact hent
              · exact h.entries x (List.mem_append.mpr (Or.inr hx'))
            by_cases hc : isCancelled p s.clock
            · simp only [hc, if_true]
              have hset := filterMap_set widx s.workers w (WStat.sending i k v conn)
                WStat.finished hw
              have hfl := filter_set_length (fun ws => ws.isFinished) s.workers w
                (WStat.sending i k v conn) WStat.finished hw
              have hfl' : ((s.workers.set w WStat.finished).filter
                  (fun ws => ws.isFinished)).length =
                  (s.workers.filter (fun ws => ws.isFinished)).length + 1 := by
                simpa [WStat.isFinished] using hfl
              constructor
              · intro hnd
                have hp := (h.pools hd).count_eq
                rw [List.perm_iff_count]
                intro a
                have hs := hset.count_eq a
                have hp' := hp a
                unfold poolIdx at hp' ⊢
                simp only [List.count_append, widx, Option.toList, List.map_append,
                  List.map_cons, List.map_nil, List.count_cons, List.count_nil] at hs hp' ⊢
                omega
              · intro a ha
                exact h.doneIdx a ha
              · exact h.accFold
              · intro a ha
                exact h.doneAcc a ha
              · intro x hx
                apply hcommon x
                simpa using hx
              · intro ws hws
                rcases mem_of_mem_set _ _ _ _ hws with hws' | rfl
                · exact h.wentries ws hws'
                · exact ⟨fun i' k' c' heq => (nomatch heq),
                    fun i' k' v' c' heq => (nomatch heq)⟩
              · intro hdr
                exact absurd (h.drainFin hdr _ hmem) (by intro hcon; cases hcon)
              · have hj := h.joinedFin
                show s.joined + (s.finishedQueue ++ [false]).length =
                  ((s.workers.set w WStat.finished).filter (fun ws => ws.isFinished)).length
                rw [hfl', List.length_append]
                simp only [List.length_cons, List.length_nil]
                omega
              · exact h.joinKc
            · rw [Bool.not_eq_true] at hc
              simp only [hc, Bool.false_eq_true, if_false]
              have hset := filterMap_set widx s.workers w (WStat.sending i k v conn)
                (WStat.ready conn) hw
              have hfl := filter_set_length (fun ws => ws.isFinished) s.workers w
                (WStat.sending i k v conn) (WStat.ready conn) hw
              have hfl' : ((s.workers.set w (WStat.ready conn)).filter
                  (fun ws => ws.isFinished)).length =
                  (s.workers.filter (fun ws => ws.isFinished)).length := by
                simpa [WStat.isFinished] using hfl
              constructor
              · intro hnd
                have hp := (h.pools hd).count_eq
                rw [List.perm_iff_count]
                intro a
                have hs := hset.count_eq a
                have hp' := hp a
                unfold poolIdx at hp' ⊢
                simp only [List.count_append, widx, Option.toList, List.map_append,
                  List.map_cons, List.map_nil, List.count_cons, List.count_nil] at hs hp' ⊢
                omega
              · intro a ha
                exact h.doneIdx a ha
              · exact h.accFold
              · intro a ha
                exact h.doneAcc a ha
              · intro x hx
                apply hcommon x
                simpa using hx
              · intro ws hws
                rcases mem_of_mem_set _ _ _ _ hws with hws' | rfl
                · exact h.wentries ws hws'
                · exact ⟨fun i' k' c' heq => (nomatch heq),
                    fun i' k' v' c' heq => (nomatch heq)⟩
              · intro hdr
                exact absurd (h.drainFin hdr _ hmem) (by intro hcon; cases hcon)
              · have hj := h.joinedFin
                show s.joined + s.finishedQueue.length =
                  ((s.workers.set w (WStat.ready conn)).filter (fun ws => ws.isFinished)).length
                rw [hfl']
                exact h.joinedFin
              · exact h.joinKc

theorem loopConsume_phase (s : MRState K V Conn Acc E) :
    (loopConsume p s).phase = s.phase := by
  unfold loopConsume
  (repeat' split) <;> rfl

theorem MInv_awaitFirstStep {s : MRState K V Conn Acc E} (hp : s.phase = Phase.awaitFirst)
    (h : MInv p f g s) : MInv p f g (awaitFirstStep p s) := by
  have hnd : s.phase.isDone = false := by rw [hp]; rfl
  unfold awaitFirstStep
  cases hcd : s.connDone with
  | nil => exact h
  | cons r rest =>
      cases r with
      | error e =>
          constructor
          · intro hx
            simp [Phase.isDone] at hx
          · intro a ha
            simp at ha
          · exact h.accFold
          · intro a ha
            simp at ha
          · exact h.entries
          · exact h.wentries
          · intro hdr
            simp at hdr
          · exact h.joinedFin
          · intro hj
            rcases hj with hj | hj <;> simp at hj
      | ok c =>
          constructor
          · intro _
            have hpool := h.pools hnd
            unfold poolIdx at hpool ⊢
            simpa [List.filterMap_append, widx] using hpool
          · intro a ha
            by_cases hkc : s.keyCounter < p.keys.length <;> simp [hkc] at ha
          · exact h.accFold
          · intro a ha
            by_cases hkc : s.keyCounter < p.keys.length <;> simp [hkc] at ha
          · exact h.entries
          · intro ws hws
            rcases List.mem_append.mp hws with hws' | hws'
            · exact h.wentries ws hws'
            · rcases List.mem_singleton.mp hws' with rfl
              exact ⟨fun i k c' heq => (nomatch heq), fun i k v c' heq => (nomatch heq)⟩
          · intro hdr
            by_cases hkc : s.keyCounter < p.keys.length <;> simp [hkc] at hdr
          · simpa [List.filter_append, WStat.isFinished] using h.joinedFin
          · intro hj
            by_cases hkc : s.keyCounter < p.keys.length
            · rcases hj with hj | hj <;> simp [hkc] at hj
            · exact le_of_not_lt hkc

theorem MInv_loopConsume {s : MRState K V Conn Acc E} (hp : s.phase = Phase.loop)
    (h : MInv p f g s) : MInv p f g (loopConsume p s) := by
  have hnd : s.phase.isDone = false := by rw [hp]; rfl
  unfold loopConsume
  cases hcd : s.connDone with
  | nil => exact h
  | cons r rest =>
      cases r with
      | error e => exact @MInv_congr K V Conn Acc E _ p f g s _ rfl rfl rfl rfl rfl rfl rfl rfl h
      | ok c =>
          constructor
          · intro _
            have hpool := h.pools hnd
            unfold poolIdx at hpool ⊢
            simpa [List.filterMap_append, widx] using hpool
          · intro a ha
            have ha' : s.phase = Phase.done (Except.ok a) := ha
            rw [hp] at ha'
            exact (nomatch ha')
          · exact h.accFold
          · intro a ha
            have ha' : s.phase = Phase.done (Except.ok a) := ha
            rw [hp] at ha'
            exact (nomatch ha')
          · exact h.entries
          · intro ws hws
            rcases List.mem_append.mp hws with hws' | hws'
            · exact h.wentries ws hws'
            · rcases List.mem_singleton.mp hws' with rfl
              exact ⟨fun i k c' heq => (nomatch heq), fun i k v c' heq => (nomatch heq)⟩
          · intro hdr
            have hdr' : s.phase = Phase.drainPhase := hdr
            rw [hp] at hdr'
            exact (nomatch hdr')
          · simpa [List.filter_append, WStat.isFinished] using h.joinedFin
          · intro hj
            rcases hj with hj | hj
            · have hj' : s.phase = Phase.joinPhase := hj
              rw [hp] at hj'
              exact (nomatch hj')
            · have hj' : s.phase = Phase.drainPhase := hj
              rw [hp] at hj'
              exact (nomatch hj')

theorem MInv_loopDrain (hred : ∀ a k v, p.reducef a k v = Except.ok (g a k v))
    {s : MRState K V Conn Acc E} (hnd : s.phase.isDone = false) (h : MInv p f g s) :
    MInv p f g (loopDrain p s) ∧ (loopDrain p s).phase = s.phase := by
  unfold loopDrain
  by_cases hch : s.chan.isEmpty
  · rw [if_pos hch]
    exact ⟨h, rfl⟩
  · rw [if_neg hch]
    refine MInv_reduceMany p f g hred ((s.chan.take (min s.nConns s.chan.length)).reverse)
      { s with chan := s.chan.drop (min s.nConns s.chan.length) } hnd ?_ ?_ h.accFold ?_
      h.wentries h.drainFin h.joinedFin h.joinKc
    · rw [List.perm_iff_count]
      intro a
      have hp' := (h.pools hnd).count_eq a
      have htd := congrArg (fun l => List.count a (l.map Entry.idx))
        (List.take_append_drop (min s.nConns s.chan.length) s.chan)
      simp only [List.map_append, List.count_append] at htd
      unfold poolIdx at hp' ⊢
      simp only [List.count_append, List.map_reverse, List.count_reverse] at hp' ⊢
      omega
    · intro e he
      exact h.entries e (List.mem_append.mpr
        (Or.inl (List.mem_of_mem_take (List.mem_reverse.mp he))))
    · intro e he
      rcases List.mem_append.mp he with he' | he'
      · exact h.entries e (List.mem_append.mpr (Or.inl (List.mem_of_mem_drop he')))
      · exact h.entries e (List.mem_append.mpr (Or.inr he'))

theorem MInv_loopTail {s : MRState K V Conn Acc E} (h : MInv p f g s) :
    MInv p f g (loopTail p s) := by
  unfold loopTail
  by_cases hd : s.phase.isDone
  · rw [if_pos hd]
    exact h
  · rw [if_neg hd]
    by_cases hc : isCancelled p s.clock
    · rw [if_pos hc]
      constructor
      · intro hx
        simp [Phase.isDone] at hx
      · intro a ha
        simp at ha
      · exact h.accFold
      · intro a ha
        simp at ha
      · exact h.entries
      · exact h.wentries
      · intro hdr
        simp at hdr
      · exact h.joinedFin
      · intro hj
        rcases hj with hj | hj <;> simp at hj
    · rw [if_neg hc]
      constructor
      · intro _
        exact h.pools (by simpa using hd)
      · intro a ha
        by_cases hkc : s.keyCounter < p.keys.length <;> simp [hkc] at ha
      · exact h.accFold
      · intro a ha
        by_cases hkc : s.keyCounter < p.keys.length <;> simp [hkc] at ha
      · exact h.entries
      · exact h.wentries
      · intro hdr
        by_cases hkc : s.keyCounter < p.keys.length <;> simp [hkc] at hdr
      · exact h.joinedFin
      · intro hj
        by_cases hkc : s.keyCounter < p.keys.length
        · rcases hj with hj | hj <;> simp [hkc] at hj
        · exact le_of_not_lt hkc

theorem MInv_drainTail {s : MRState K V Conn Acc E} (h : MInv p f g s) :
    MInv p f g (drainTail p s) := by
  unfold drainTail
  by_cases hd : s.phase.isDone
  · rw [if_pos hd]
    exact h
  · rw [if_neg hd]
    by_cases hc : isCancelled p s.clock
    · rw [if_pos hc]
      constructor
      · intro hx
        simp [Phase.isDone] at hx
      · intro a ha
        simp at ha
      · exact h.accFold
      · intro a ha
        simp at ha
      · exact h.entries
      · exact h.wentries
      · intro hdr
        simp at hdr
      · exact h.joinedFin
      · intro hj
        rcases hj with hj | hj <;> simp at hj
    · rw [if_neg hc]
      exact h

theorem MInv_loopStep (hred : ∀ a k v, p.reducef a k v = Except.ok (g a k v))
    {s : MRState K V Conn Acc E} (hp : s.phase = Phase.loop) (h : MInv p f g s) :
    MInv p f g (loopStep p s) := by
  have ht : MInv p f g (loopConsume p s) := MInv_loopConsume p f g hp h
  have htnd : (loopConsume p s).phase.isDone = false := by
    rw [loopConsume_phase, hp]
    rfl
  unfold loopStep
  by_cases hblock : s.connDone.isEmpty ∧ ¬ s.pending.isEmpty
  · rw [if_pos hblock]
    exact h
  · rw [if_neg hblock]
    by_cases hgrow : shouldGrow p (loopConsume p s)
    · rw [if_pos hgrow]
      constructor
      · intro _
        exact ht.pools htnd
      · intro a ha
        by_cases hkc : (loopConsume p s).keyCounter < p.keys.length <;> simp [hkc] at ha
      · exact ht.accFold
      · intro a ha
        by_cases hkc : (loopConsume p s).keyCounter < p.keys.length <;> simp [hkc] at ha
      · exact ht.entries
      · exact ht.wentries
      · intro hdr
        by_cases hkc : (loopConsume p s).keyCounter < p.keys.length <;> simp [hkc] at hdr
      · exact ht.joinedFin
      · intro hj
        by_cases hkc : (loopConsume p s).keyCounter < p.keys.length
        · rcases hj with hj | hj <;> simp [hkc] at hj
        · exact le_of_not_lt hkc
    · rw [if_neg hgrow]
      exact MInv_loopTail p f g (MInv_loopDrain p f g hred htnd ht).1

theorem isFinished_eq (ws : WStat K V Conn) (hq : ws.isFinished = true) :
    ws = WStat.finished := by
  cases ws <;> first | rfl | simp [WStat.isFinished] at hq

theorem MInv_joinStep {s : MRState K V Conn Acc E} (hp : s.phase = Phase.joinPhase)
    (h : MInv p f g s) : MInv p f g (joinStep p s) := by
  have hnd : s.phase.isDone = false := by rw [hp]; rfl
  cases hfq : s.finishedQueue with
  | nil =>
      rw [show joinStep p s = (if s.joined = s.workers.length then
          { s with phase := Phase.drainPhase } else s) from by unfold joinStep; rw [hfq]]
      by_cases hj : s.joined = s.workers.length
      · rw [if_pos hj]
        have hallfin : ∀ ws ∈ s.workers, ws = WStat.finished := by
          have hjf := h.joinedFin
          rw [hfq] at hjf
          simp only [List.length_nil, Nat.add_zero] at hjf
          intro ws hws
          exact isFinished_eq ws
            (all_finished_of_filter_length (fun ws => ws.isFinished) s.workers
              (by omega) ws hws)
        constructor
        · intro _
          exact h.pools hnd
        · intro a ha
          simp at ha
        · exact h.accFold
        · intro a ha
          simp at ha
        · exact h.entries
        · exact h.wentries
        · intro _
          exact hallfin
        · exact h.joinedFin
        · intro _
          exact h.joinKc (Or.inl hp)
      · rw [if_neg hj]
        exact h
  | cons b rest =>
      have hjf1 : s.joined + 1 + rest.length =
          (s.workers.filter (fun ws => ws.isFinished)).length := by
        have hjf := h.joinedFin
        rw [hfq] at hjf
        simp only [List.length_cons] at hjf
        omega
      rw [show joinStep p s = (if b = true then
          (if isCancelled p s.clock = true then
            { s with finishedQueue := rest, joined := s.joined + 1,
                     phase := Phase.done (Except.error Cancellable.cancelled) }
           else { s with finishedQueue := rest, joined := s.joined + 1 })
          else { s with finishedQueue := rest, joined := s.joined + 1,
                        phase := Phase.done (Except.error Cancellable.cancelled) })
          from by unfold joinStep; rw [hfq]]
      by_cases hb : b = true
      · rw [if_pos hb]
        by_cases hc : isCancelled p s.clock
        · rw [if_pos hc]
          constructor
          · intro hx
            simp [Phase.isDone] at hx
          · intro a ha
            simp at ha
          · exact h.accFold
          · intro a ha
            simp at ha
          · exact h.entries
          · exact h.wentries
          · intro hdr
            simp at hdr
          · exact hjf1
          · intro hj2
            rcases hj2 with hj2 | hj2 <;> simp at hj2
        · rw [if_neg hc]
          constructor
          · intro _
            exact h.pools hnd
          · intro a ha
            have ha' : s.phase = Phase.done (Except.ok a) := ha
            rw [hp] at ha'
            exact (nomatch ha')
          · exact h.accFold
          · intro a ha
            have ha' : s.phase = Phase.done (Except.ok a) := ha
            rw [hp] at ha'
            exact (nomatch ha')
          · exact h.entries
          · exact h.wentries
          · intro hdr
            have hdr' : s.phase = Phase.drainPhase := hdr
            rw [hp] at hdr'
            exact (nomatch hdr')
          · exact hjf1
          · intro _
            exact h.joinKc (Or.inl hp)
      · rw [if_neg hb]
        constructor
        · intro hx
          simp [Phase.isDone] at hx
        · intro a ha
          simp at ha
        · exact h.accFold
        · intro a ha
          simp at ha
        · exact h.entries
        · exact h.wentries
        · intro hdr
          simp at hdr
        · exact hjf1
        · intro hj2
          rcases hj2 with hj2 | hj2 <;> simp at hj2

theorem MInv_drainStep (hred : ∀ a k v, p.reducef a k v = Except.ok (g a k v))
    {s : MRState K V Conn Acc E} (hp : s.phase = Phase.drainPhase) (h : MInv p f g s) :
    MInv p f g (drainStep p s) := by
  have hnd : s.phase.isDone = false := by rw [hp]; rfl
  unfold drainStep
  by_cases hch : s.chan.isEmpty
  · rw [if_pos hch]
    have hchan : s.chan = [] := by simpa using hch
    have hfm : s.workers.filterMap widx = [] := by
      rw [List.filterMap_eq_nil]
      intro ws hws
      rw [h.drainFin hp ws hws]
      rfl
    have hkcle : p.keys.length ≤ s.keyCounter := h.joinKc (Or.inr hp)
    have hlog : (s.reduceLog.map Entry.idx).Perm (List.range p.keys.length) := by
      have hpool := h.pools hnd
      unfold poolIdx at hpool
      rw [hfm, hchan] at hpool
      simpa [min_eq_right hkcle] using hpool
    constructor
    · intro hx
      simp [Phase.isDone] at hx
    · intro a _
      exact hlog
    · exact h.accFold
    · intro a ha
      have ha' : Phase.done (Except.ok s.acc) = Phase.done (Except.ok a) := ha
      simp only [Phase.done.injEq, Except.ok.injEq] at ha'
      rw [← ha']
      exact h.accFold
    · exact h.entries
    · exact h.wentries
    · intro hdr
      simp at hdr
    · exact h.joinedFin
    · intro hj2
      rcases hj2 with hj2 | hj2 <;> simp at hj2
  · rw [if_neg hch]
    have hld : loopDrain p s = reduceMany p
        { s with chan := s.chan.drop (min s.nConns s.chan.length) }
        ((s.chan.take (min s.nConns s.chan.length)).reverse) := by
      unfold loopDrain
      rw [if_neg hch]
    rw [← hld]
    exact MInv_drainTail p f g (MInv_loopDrain p f g hred hnd h).1

theorem MInv_orchStep (hred : ∀ a k v, p.reducef a k v = Except.ok (g a k v))
    {s : MRState K V Conn Acc E} (h : MInv p f g s) : MInv p f g (orchStep p s) := by
  unfold orchStep
  cases hph : s.phase with
  | awaitFirst => exact MInv_awaitFirstStep p f g hph h
  | loop => exact MInv_loopStep p f g hred hph h
  | joinPhase => exact MInv_joinStep p f g hph h
  | drainPhase => exact MInv_drainStep p f g hred hph h
  | done r => exact h

theorem MInv_step (hmap : ∀ c k, (p.mapf c k).1 = f k)
    (hred : ∀ a k v, p.reducef a k v = Except.ok (g a k v))
    {s : MRState K V Conn Acc E} (h : MInv p f g s) (ev : Sched) :
    MInv p f g (step p s ev) := by
  cases ev with
  | conn j =>
      exact @MInv_congr K V Conn Acc E _ p f g (connStep p s j) (step p s (Sched.conn j))
        rfl rfl rfl rfl rfl rfl rfl rfl (MInv_connStep p f g h j)
  | claim w =>
      exact @MInv_congr K V Conn Acc E _ p f g (claimStep p s w) (step p s (Sched.claim w))
        rfl rfl rfl rfl rfl rfl rfl rfl (MInv_claimStep p f g h w)
  | finishMap w =>
      exact @MInv_congr K V Conn Acc E _ p f g (finishMapStep p s w)
        (step p s (Sched.finishMap w))
        rfl rfl rfl rfl rfl rfl rfl rfl (MInv_finishMapStep p f g hmap h w)
  | send w =>
      exact @MInv_congr K V Conn Acc E _ p f g (sendStep p s w) (step p s (Sched.send w))
        rfl rfl rfl rfl rfl rfl rfl rfl (MInv_sendStep p f g h w)
  | orch =>
      exact @MInv_congr K V Conn Acc E _ p f g (orchStep p s) (step p s Sched.orch)
        rfl rfl rfl rfl rfl rfl rfl rfl (MInv_orchStep p f g hred h)

theorem MInv_init : MInv p f g (initState p) := by
  have hbase : ∀ (n : ℕ) (pd : List ℕ),
      MInv p f g
        { keyCounter := 0, taskCount := 0, totalTaskTimeUs := 0,
          connCount := 0, totalConnTimeUs := 0, nConns := n, pending := pd, connDone := [],
          workers := [], finishedQueue := [], joined := 0, chan := [], reduceLog := [],
          acc := default, mapCalls := 0, claimLog := [], clock := 0,
          phase := Phase.awaitFirst } := by
    intro n pd
    constructor
    · intro _
      unfold poolIdx
      simp
    · intro a ha
      exact (nomatch ha)
    · rfl
    · intro a ha
      exact (nomatch ha)
    · intro e he
      simp at he
    · intro ws hws
      simp at hws
    · intro hdr
      exact (nomatch hdr)
    · rfl
    · intro hj
      rcases hj with hj | hj <;> exact (nomatch hj)
  by_cases hke : p.keys.isEmpty
  · have hkeys : p.keys = [] := by simpa using hke
    have hinit : initState p =
        { keyCounter := 0, taskCount := 0, totalTaskTimeUs := 0,
          connCount := 0, totalConnTimeUs := 0, nConns := 0, pending := [], connDone := [],
          workers := [], finishedQueue := [], joined := 0, chan := [], reduceLog := [],
          acc := default, mapCalls := 0, claimLog := [], clock := 0,
          phase := Phase.done (Except.ok default) } := by
      simp only [initState, hke, if_true]
    rw [hinit]
    constructor
    · intro hx
      simp [Phase.isDone] at hx
    · intro a _
      simp [hkeys]
    · rfl
    · intro a ha
      simp only [Phase.done.injEq, Except.ok.injEq] at ha
      exact ha.symm
    · intro e he
      simp at he
    · intro ws hws
      simp at hws
    · intro hdr
      exact (nomatch hdr)
    · rfl
    · intro hj
      rcases hj with hj | hj <;> exact (nomatch hj)
  · by_cases hmc : maxConns p > 1
    · have hinit : initState p =
          { keyCounter := 0, taskCount := 0, totalTaskTimeUs := 0,
            connCount := 0, totalConnTimeUs := 0, nConns := 2, pending := [0, 1],
            connDone := [], workers := [], finishedQueue := [], joined := 0, chan := [],
            reduceLog := [], acc := default, mapCalls := 0, claimLog := [], clock := 0,
            phase := Phase.awaitFirst } := by
        simp only [initState, hke, Bool.false_eq_true, if_false, hmc, if_true]
      rw [hinit]
      exact hbase 2 [0, 1]
    · have hinit : initState p =
          { keyCounter := 0, taskCount := 0, totalTaskTimeUs := 0,
            connCount := 0, totalConnTimeUs := 0, nConns := 1, pending := [0],
            connDone := [], workers := [], finishedQueue := [], joined := 0, chan := [],
            reduceLog := [], acc := default, mapCalls := 0, claimLog := [], clock := 0,
            phase := Phase.awaitFirst } := by
        simp only [initState, hke, Bool.false_eq_true, if_false, hmc, if_true]
      rw [hinit]
      exact hbase 1 [0]

theorem MInv_interp (hmap : ∀ c k, (p.mapf c k).1 = f k)
    (hred : ∀ a k v, p.reducef a k v = Except.ok (g a k v)) (evs : List Sched) :
    MInv p f g (interp p evs) := by
  unfold interp
  exact foldl_preserve (fun t => MInv p f g t)
    (fun t ev ht => MInv_step p f g hmap hred ht ev) evs (initState p) (MInv_init p f g)

/-- From the invariant, a successful final state has reduced exactly the
input key list (as (key, map value) pairs, up to order), and its
accumulator is the fold of the reduce log. -/
theorem completeness_core {t : MRState K V Conn Acc E} (h : MInv p f g t) {a : Acc}
    (hdone : t.phase = Phase.done (Except.ok a)) :
    ((t.reduceLog.map (fun e => (e.key, e.val))).Perm
      (p.keys.map (fun k => (k, f k)))) ∧
    a = t.reduceLog.foldl (fun b e => g b e.key e.val) default := by
  constructor
  · have hidx := h.doneIdx a hdone
    have hmap1 : t.reduceLog.filterMap
        (fun e => (p.keys.get? e.idx).map (fun k => (k, f k))) =
        t.reduceLog.map (fun e => (e.key, e.val)) := by
      apply filterMap_congr_map
      intro e he
      have hent := h.entries e (List.mem_append.mpr (Or.inr he))
      rw [hent.1]
      simp only [Option.map_some']
      rw [← hent.2]
    have hmap2 : t.reduceLog.filterMap
        (fun e => (p.keys.get? e.idx).map (fun k => (k, f k))) =
        (t.reduceLog.map Entry.idx).filterMap
          (fun i => (p.keys.get? i).map (fun k => (k, f k))) := by
      rw [List.filterMap_map]
      rfl
    have hperm := hidx.filterMap (fun i => (p.keys.get? i).map (fun k => (k, f k)))
    rw [range_filterMap_get (fun k => (k, f k)) p.keys] at hperm
    rw [← hmap1, hmap2]
    exact hperm
  · exact h.doneAcc a hdone

/-- A run that never observes cancellation, never fails a reduction, and whose
first awaited connection-factory result is a success: its phase can only
complete with `Ok`, while in `awaitFirst` the head of the completion queue is
a success, and before completion every joined worker sent successfully. -/
def GoodRun (p : MRParams K V Conn Acc E) (t : MRState K V Conn Acc E) : Prop :=
  (∀ r, t.phase = Phase.done r → ∃ a, r = Except.ok a) ∧
  (t.phase = Phase.awaitFirst → ∃ c rest, t.connDone = Except.ok c :: rest) ∧
  (t.phase.isDone = false → ∀ b ∈ t.finishedQueue, b = true)

theorem isCancelled_none (hcancel : p.cancelAt = none) (c : ℕ) :
    isCancelled p c = false := by
  unfold isCancelled
  rw [hcancel]

theorem connStep_connDone (j : ℕ) (s : MRState K V Conn Acc E) :
    (connStep p s j).connDone = s.connDone ∨
    ∃ x, (connStep p s j).connDone = s.connDone ++ [x] := by
  unfold connStep
  (repeat' split) <;> first | exact Or.inl rfl | exact Or.inr ⟨_, rfl⟩

theorem claimStep_fq (w : ℕ) (s : MRState K V Conn Acc E) :
    (claimStep p s w).finishedQueue = s.finishedQueue ∨
    (claimStep p s w).finishedQueue = s.finishedQueue ++ [true] := by
  unfold claimStep
  (repeat' split) <;> first | exact Or.inl rfl | exact Or.inr rfl

theorem sendStep_fq (w : ℕ) (s : MRState K V Conn Acc E)
    (hnd : s.phase.isDone = false) (hnc : isCancelled p s.clock = false) :
    (sendStep p s w).finishedQueue = s.finishedQueue := by
  unfold sendStep
  cases hw : s.workers.get? w with
  | none => rfl
  | some st =>
      cases st with
      | ready c => rfl
      | mapping i k c => rfl
      | finished => rfl
      | sending i k v conn =>
          simp only [hnd, hnc, Bool.false_eq_true, if_false]

theorem GoodRun_congr {t u : MRState K V Conn Acc E} (hph : t.phase = u.phase)
    (hcd : t.connDone = u.connDone) (hfq : t.finishedQueue = u.finishedQueue)
    (h : GoodRun p u) : GoodRun p t := by
  obtain ⟨h1, h2, h3⟩ := h
  refine ⟨?_, ?_, ?_⟩
  · intro r hr
    rw [hph] at hr
    exact h1 r hr
  · intro ha
    rw [hph] at ha
    obtain ⟨c, rest, hc⟩ := h2 ha
    exact ⟨c, rest, by rw [hcd, hc]⟩
  · intro hnd b hb
    rw [hph] at hnd
    rw [hfq] at hb
    exact h3 hnd b hb

theorem GoodRun_connStep {s : MRState K V Conn Acc E} (h : GoodRun p s) (j : ℕ) :
    GoodRun p (connStep p s j) := by
  obtain ⟨h1, h2, h3⟩ := h
  have hph : (connStep p s j).phase = s.phase := (connStep_frame p s j).2.2.2.2.2.1
  have hfq : (connStep p s j).finishedQueue = s.finishedQueue :=
    (connStep_frame p s j).2.2.2.2.2.2.2.2.2.1
  refine ⟨?_, ?_, ?_⟩
  · intro r hr
    rw [hph] at hr
    exact h1 r hr
  · intro ha
    rw [hph] at ha
    obtain ⟨c, rest, hcd⟩ := h2 ha
    rcases connStep_connDone p j s with hcd' | ⟨x, hcd'⟩
    · exact ⟨c, rest, by rw [hcd', hcd]⟩
    · exact ⟨c, rest ++ [x], by rw [hcd', hcd]; rfl⟩
  · intro hnd b hb
    rw [hph] at hnd
    rw [hfq] at hb
    exact h3 hnd b hb

theorem GoodRun_claimStep {s : MRState K V Conn Acc E} (h : GoodRun p s) (w : ℕ) :
    GoodRun p (claimStep p s w) := by
  obtain ⟨h1, h2, h3⟩ := h
  have hph : (claimStep p s w).phase = s.phase :=
    (claimStep_frame p s w).2.2.2.2.2.2.2.2.2.2.2.1
  have hcd : (claimStep p s w).connDone = s.connDone :=
    (claimStep_frame p s w).2.2.2.2.2.2.1
  refine ⟨?_, ?_, ?_⟩
  · intro r hr
    rw [hph] at hr
    exact h1 r hr
  · intro ha
    rw [hph] at ha
    obtain ⟨c, rest, hc⟩ := h2 ha
    exact ⟨c, rest, by rw [hcd, hc]⟩
  · intro hnd b hb
    rw [hph] at hnd
    rcases claimStep_fq p w s with hfq | hfq
    · rw [hfq] at hb
      exact h3 hnd b hb
    · rw [hfq] at hb
      rcases List.mem_append.mp hb with hb' | hb'
      · exact h3 hnd b hb'
      · exact List.mem_singleton.mp hb'

theorem GoodRun_finishMapStep {s : MRState K V Conn Acc E} (h : GoodRun p s) (w : ℕ) :
    GoodRun p (finishMapStep p s w) := by
  exact GoodRun_congr p (finishMapStep_frame p s w).2.2.2.2.2.2.2.2.2.2.1
    (finishMapStep_frame p s w).2.2.2.2.2.1
    (finishMapStep_frame p s w).2.2.2.2.2.2.2.2.2.2.2.1 h

theorem GoodRun_sendStep (hcancel : p.cancelAt = none) {s : MRState K V Conn Acc E}
    (h : GoodRun p s) (w : ℕ) : GoodRun p (sendStep p s w) := by
  obtain ⟨h1, h2, h3⟩ := h
  have hph : (sendStep p s w).phase = s.phase :=
    (sendStep_frame p s w).2.2.2.2.2.2.2.2.2.2.2.2.1
  have hcd : (sendStep p s w).connDone = s.connDone :=
    (sendStep_frame p s w).2.2.2.2.2.2.2.1
  refine ⟨?_, ?_, ?_⟩
  · intro r hr
    rw [hph] at hr
    exact h1 r hr
  · intro ha
    rw [hph] at ha
    obtain ⟨c, rest, hc⟩ := h2 ha
    exact ⟨c, rest, by rw [hcd, hc]⟩
  · intro hnd b hb
    rw [hph] at hnd
    rw [sendStep_fq p w s hnd (isCancelled_none p hcancel s.clock)] at hb
    exact h3 hnd b hb

theorem GoodRun_awaitFirstStep {s : MRState K V Conn Acc E}
    (hp : s.phase = Phase.awaitFirst) (h : GoodRun p s) :
    GoodRun p (awaitFirstStep p s) := by
  obtain ⟨h1, h2, h3⟩ := h
  obtain ⟨c, rest, hcd⟩ := h2 hp
  unfold awaitFirstStep
  rw [hcd]
  refine ⟨?_, ?_, ?_⟩
  · intro r hr
    by_cases hkc : s.keyCounter < p.keys.length <;> simp [hkc] at hr
  · intro ha
    by_cases hkc : s.keyCounter < p.keys.length <;> simp [hkc] at ha
  · intro _ b hb
    have hb' : b ∈ s.finishedQueue := hb
    exact h3 (by rw [hp]; rfl) b hb'

theorem GoodRun_loopStep (hcancel : p.cancelAt = none)
    (hred : ∀ a' k v, ∃ a'', p.reducef a' k v = Except.ok a'')
    {s : MRState K V Conn Acc E} (hp : s.phase = Phase.loop) (h : GoodRun p s) :
    GoodRun p (loopStep p s) := by
  obtain ⟨h1, h2, h3⟩ := h
  unfold loopStep
  by_cases hblock : s.connDone.isEmpty ∧ ¬ s.pending.isEmpty
  · rw [if_pos hblock]
    exact ⟨h1, h2, h3⟩
  · rw [if_neg hblock]
    by_cases hgrow : shouldGrow p (loopConsume p s)
    · rw [if_pos hgrow]
      refine ⟨?_, ?_, ?_⟩
      · intro r hr
        by_cases hkc : (loopConsume p s).keyCounter < p.keys.length <;> simp [hkc] at hr
      · intro ha
        by_cases hkc : (loopConsume p s).keyCounter < p.keys.length <;> simp [hkc] at ha
      · intro _ b hb
        have hb' : b ∈ (loopConsume p s).finishedQueue := hb
        rw [(loopConsume_frame p s).2.2.2.2.2.2.2.2.2.2.2.2.2.1] at hb'
        exact h3 (by rw [hp]; rfl) b hb'
    · rw [if_neg hgrow]
      have htph : (loopConsume p s).phase = Phase.loop := by
        rw [loopConsume_phase p s, hp]
      have huph : (loopDrain p (loopConsume p s)).phase = Phase.loop := by
        rw [loopDrain_phase_ok p hred, htph]
      have hufq : (loopDrain p (loopConsume p s)).finishedQueue = s.finishedQueue := by
        rw [(loopDrain_frame p _).2.2.2.2.2.2.2.2.2.2.2.1]
        exact (loopConsume_frame p s).2.2.2.2.2.2.2.2.2.2.2.2.2.1
      unfold loopTail
      rw [if_neg (by rw [huph]; simp [Phase.isDone]),
        if_neg (by rw [isCancelled_none p hcancel]; simp)]
      refine ⟨?_, ?_, ?_⟩
      · intro r hr
        by_cases hkc : (loopDrain p (loopConsume p s)).keyCounter < p.keys.length <;>
          simp [hkc] at hr
      · intro ha
        by_cases hkc : (loopDrain p (loopConsume p s)).keyCounter < p.keys.length <;>
          simp [hkc] at ha
      · intro _ b hb
        have hb' : b ∈ (loopDrain p (loopConsume p s)).finishedQueue := hb
        rw [hufq] at hb'
        exact h3 (by rw [hp]; rfl) b hb'

theorem GoodRun_joinStep (hcancel : p.cancelAt = none) {s : MRState K V Conn Acc E}
    (hp : s.phase = Phase.joinPhase) (h : GoodRun p s) : GoodRun p (joinStep p s) := by
  obtain ⟨h1, h2, h3⟩ := h
  cases hfq : s.finishedQueue with
  | nil =>
      rw [show joinStep p s = (if s.joined = s.workers.length then
          { s with phase := Phase.drainPhase } else s) from by unfold joinStep; rw [hfq]]
      by_cases hj : s.joined = s.workers.length
      · rw [if_pos hj]
        refine ⟨?_, ?_, ?_⟩
        · intro r hr
          simp at hr
        · intro ha
          simp at ha
        · intro _ b hb
          have hb' : b ∈ s.finishedQueue := hb
          exact h3 (by rw [hp]; rfl) b hb'
      · rw [if_neg hj]
        exact ⟨h1, h2, h3⟩
  | cons b rest =>
      have hb : b = true :=
        h3 (by rw [hp]; rfl) b (by rw [hfq]; exact List.mem_cons_self _ _)
      rw [show joinStep p s = (if b = true then
          (if isCancelled p s.clock = true then
            { s with finishedQueue := rest, joined := s.joined + 1,
                     phase := Phase.done (Except.error Cancellable.cancelled) }
           else { s with finishedQueue := rest, joined := s.joined + 1 })
          else { s with finishedQueue := rest, joined := s.joined + 1,
                        phase := Phase.done (Except.error Cancellable.cancelled) })
          from by unfold joinStep; rw [hfq]]
      rw [if_pos hb, if_neg (by rw [isCancelled_none p hcancel]; simp)]
      refine ⟨?_, ?_, ?_⟩
      · intro r hr
        have hr' : s.phase = Phase.done r := hr
        rw [hp] at hr'
        exact (nomatch hr')
      · intro ha
        have ha' : s.phase = Phase.awaitFirst := ha
        rw [hp] at ha'
        exact (nomatch ha')
      · intro _ b' hb'
        have hb'' : b' ∈ rest := hb'
        exact h3 (by rw [hp]; rfl) b' (by rw [hfq]; exact List.mem_cons_of_mem _ hb'')

theorem GoodRun_drainStep (hcancel : p.cancelAt = none)
    (hred : ∀ a' k v, ∃ a'', p.reducef a' k v = Except.ok a'')
    {s : MRState K V Conn Acc E} (hp : s.phase = Phase.drainPhase) (h : GoodRun p s) :
    GoodRun p (drainStep p s) := by
  obtain ⟨h1, h2, h3⟩ := h
  unfold drainStep
  by_cases hch : s.chan.isEmpty
  · rw [if_pos hch]
    refine ⟨?_, ?_, ?_⟩
    · intro r hr
      have hr' : (Phase.done (Except.ok s.acc) : Phase Acc E) = Phase.done r := hr
      injection hr' with h''
      exact ⟨s.acc, h''.symm⟩
    · intro ha
      have ha' : (Phase.done (Except.ok s.acc) : Phase Acc E) = Phase.awaitFirst := ha
      exact (nomatch ha')
    · intro hnd
      have hnd' : (Phase.done (Except.ok s.acc) : Phase Acc E).isDone = false := hnd
      simp [Phase.isDone] at hnd'
  · rw [if_neg hch]
    have hld : loopDrain p s = reduceMany p
        { s with chan := s.chan.drop (min s.nConns s.chan.length) }
        ((s.chan.take (min s.nConns s.chan.length)).reverse) := by
      unfold loopDrain
      rw [if_neg hch]
    rw [← hld]
    have huph : (loopDrain p s).phase = Phase.drainPhase := by
      rw [loopDrain_phase_ok p hred, hp]
    have hdt : drainTail p (loopDrain p s) = loopDrain p s := by
      unfold drainTail
      rw [if_neg (by rw [huph]; simp [Phase.isDone]),
        if_neg (by rw [isCancelled_none p hcancel]; simp)]
    rw [hdt]
    refine ⟨?_, ?_, ?_⟩
    · intro r hr
      rw [huph] at hr
      exact (nomatch hr)
    · intro ha
      rw [huph] at ha
      exact (nomatch ha)
    · intro _ b hb
      have hb' : b ∈ (loopDrain p s).finishedQueue := hb
      rw [(loopDrain_frame p s).2.2.2.2.2.2.2.2.2.2.2.1] at hb'
      exact h3 (by rw [hp]; rfl) b hb'

theorem GoodRun_orchStep (hcancel : p.cancelAt = none)
    (hred : ∀ a' k v, ∃ a'', p.reducef a' k v = Except.ok a'')
    {s : MRState K V Conn Acc E} (h : GoodRun p s) : GoodRun p (orchStep p s) := by
  unfold orchStep
  cases hph : s.phase with
  | awaitFirst => exact GoodRun_awaitFirstStep p hph h
  | loop => exact GoodRun_loopStep p hcancel hred hph h
  | joinPhase => exact GoodRun_joinStep p hcancel hph h
  | drainPhase => exact GoodRun_drainStep p hcancel hred hph h
  | done r => exact h

theorem GoodRun_step (hcancel : p.cancelAt = none)
    (hred : ∀ a' k v, ∃ a'', p.reducef a' k v = Except.ok a'')
    {s : MRState K V Conn Acc E} (h : GoodRun p s) (ev : Sched) :
    GoodRun p (step p s ev) := by
  cases ev with
  | conn j =>
      have hc := GoodRun_connStep p h j
      exact @GoodRun_congr K V Conn Acc E _ p (step p s (Sched.conn j)) (connStep p s j)
        rfl rfl rfl hc
  | claim w =>
      have hc := GoodRun_claimStep p h w
      exact @GoodRun_congr K V Conn Acc E _ p (step p s (Sched.claim w)) (claimStep p s w)
        rfl rfl rfl hc
  | finishMap w =>
      have hc := GoodRun_finishMapStep p h w
      exact @GoodRun_congr K V Conn Acc E _ p (step p s (Sched.finishMap w))
        (finishMapStep p s w) rfl rfl rfl hc
  | send w =>
      have hc := GoodRun_sendStep p hcancel h w
      exact @GoodRun_congr K V Conn Acc E _ p (step p s (Sched.send w)) (sendStep p s w)
        rfl rfl rfl hc
  | orch =>
      have hc := GoodRun_orchStep p hcancel hred h
      exact @GoodRun_congr K V Conn Acc E _ p (step p s Sched.orch) (orchStep p s)
        rfl rfl rfl hc

theorem GoodRun_base (c₀ : Conn) (hc0 : p.connResult 0 = Except.ok c₀) :
    GoodRun p (step p (initState p) (Sched.conn 0)) := by
  by_cases hke : p.keys.isEmpty
  · refine ⟨?_, ?_, ?_⟩
    · intro r hr
      have hr' : (Phase.done (Except.ok (default : Acc)) : Phase Acc E) = Phase.done r := by
        rw [← hr]
        simp [step, connStep, initState, hke]
      injection hr' with h''
      exact ⟨default, h''.symm⟩
    · intro ha
      have ha' : (Phase.done (Except.ok (default : Acc)) : Phase Acc E) = Phase.awaitFirst := by
        rw [← ha]
        simp [step, connStep, initState, hke]
      exact (nomatch ha')
    · intro hnd b hb
      have hfq : (step p (initState p) (Sched.conn 0)).finishedQueue = [] := by
        simp [step, connStep, initState, hke]
      rw [hfq] at hb
      simp at hb
  · by_cases hmc : maxConns p > 1
    · refine ⟨?_, ?_, ?_⟩
      · intro r hr
        have hr' : (Phase.awaitFirst : Phase Acc E) = Phase.done r := by
          rw [← hr]
          simp [step, connStep, initState, hke, hmc, hc0]
        exact (nomatch hr')
      · intro _
        refine ⟨c₀, [], ?_⟩
        simp [step, connStep, initState, hke, hmc, hc0]
      · intro hnd b hb
        have hfq : (step p (initState p) (Sched.conn 0)).finishedQueue = [] := by
          simp [step, connStep, initState, hke, hmc, hc0]
        rw [hfq] at hb
        simp at hb
    · refine ⟨?_, ?_, ?_⟩
      · intro r hr
        have hr' : (Phase.awaitFirst : Phase Acc E) = Phase.done r := by
          rw [← hr]
          simp [step, connStep, initState, hke, hmc, hc0]
        exact (nomatch hr')
      · intro _
        refine ⟨c₀, [], ?_⟩
        simp [step, connStep, initState, hke, hmc, hc0]
      · intro hnd b hb
        have hfq : (step p (initState p) (Sched.conn 0)).finishedQueue = [] := by
          simp [step, connStep, initState, hke, hmc, hc0]
        rw [hfq] at hb
        simp at hb

theorem GoodRun_interp (c₀ : Conn) (hc0 : p.connResult 0 = Except.ok c₀)
    (hcancel : p.cancelAt = none)
    (hred : ∀ a' k v, ∃ a'', p.reducef a' k v = Except.ok a'') (evs : List Sched) :
    GoodRun p (interp p (Sched.conn 0 :: evs)) := by
  unfold interp
  rw [List.foldl_cons]
  exact foldl_preserve (fun t => GoodRun p t)
    (fun t ev ht => GoodRun_step p hcancel hred ht ev) evs _
    (GoodRun_base p c₀ hc0)

/-! ### C1: completeness -/

/-- C1 — Completeness: with a non-empty key sequence, a token that is never
cancelled, a connection factory that always succeeds, `map_f` computing `f`,
and a `reduce_f` that always succeeds (folding with `g`), any schedule whose
run returns `Ok(a)` has invoked `reduce_f` exactly once per input key, on the
pair of that key and the value `map_f` computed for it — no key reduced twice,
none omitted (the reduce log is a permutation of the keyed map image) — and
`a` is the fold of the reduce log from `Acc::default()`. -/
theorem run_completeness (evs : List Sched) (a : Acc)
    (hne : p.keys ≠ [])
    (hcancel : p.cancelAt = none)
    (hconn : ∀ j, ∃ c, p.connResult j = Except.ok c)
    (hmap : ∀ c k, (p.mapf c k).1 = f k)
    (hred : ∀ a' k v, p.reducef a' k v = Except.ok (g a' k v))
    (hdone : (interp p evs).phase = Phase.done (Except.ok a)) :
    ((interp p evs).reduceLog.map (fun e => (e.key, e.val))).Perm
      (p.keys.map (fun k => (k, f k))) ∧
    a = (interp p evs).reduceLog.foldl (fun b e => g b e.key e.val) default :=
  completeness_core p f g (MInv_interp p f g hmap hred evs) hdone

/-! ### C7: order independence -/

/-- C7 — Order-independence of accumulation: for a commutative reduce function
(`g` commutes across consecutive insertions), `map_f` computing `f` and
`reduce_f` always succeeding, every pair of schedules whose runs both return
`Ok` yields the same accumulator, regardless of the completion and delivery
order of the (key, value) pairs across workers. -/
theorem run_order_independence
    (hmap : ∀ c k, (p.mapf c k).1 = f k)
    (hred : ∀ a' k v, p.reducef a' k v = Except.ok (g a' k v))
    (hcomm : ∀ (b : Acc) (x y : K × V),
      g (g b x.1 x.2) y.1 y.2 = g (g b y.1 y.2) x.1 x.2)
    (evs₁ evs₂ : List Sched) (a₁ a₂ : Acc)
    (h₁ : (interp p evs₁).phase = Phase.done (Except.ok a₁))
    (h₂ : (interp p evs₂).phase = Phase.done (Except.ok a₂)) :
    a₁ = a₂ := by
  have hc₁ := completeness_core p f g (MInv_interp p f g hmap hred evs₁) h₁
  have hc₂ := completeness_core p f g (MInv_interp p f g hmap hred evs₂) h₂
  have hperm : ((interp p evs₁).reduceLog.map (fun e => (e.key, e.val))).Perm
      ((interp p evs₂).reduceLog.map (fun e => (e.key, e.val))) :=
    hc₁.1.trans hc₂.1.symm
  have hfold : ((interp p evs₁).reduceLog.map (fun e => (e.key, e.val))).foldl
        (fun b x => g b x.1 x.2) default =
      ((interp p evs₂).reduceLog.map (fun e => (e.key, e.val))).foldl
        (fun b x => g b x.1 x.2) default :=
    hperm.foldl_eq' (fun x _ y _ z => hcomm z x y) default
  have hm₁ : ((interp p evs₁).reduceLog.map (fun e => (e.key, e.val))).foldl
        (fun b x => g b x.1 x.2) default =
      (interp p evs₁).reduceLog.foldl (fun b e => g b e.key e.val) default := by
    rw [List.foldl_map]
  have hm₂ : ((interp p evs₂).reduceLog.map (fun e => (e.key, e.val))).foldl
        (fun b x => g b x.1 x.2) default =
      (interp p evs₂).reduceLog.foldl (fun b e => g b e.key e.val) default := by
    rw [List.foldl_map]
  rw [hc₁.2, hc₂.2, ← hm₁, ← hm₂]
  exact hfold

/-! ### C8: speculative connection failure is absorbed -/

/-- C8 — Speculative-growth failure absorption: a completed connection-factory
error at the head of the completion queue inside the scheduling loop is
silently discarded — the loop's `next().await` consume spawns no worker,
leaves the connection count unchanged, and just drops the failed result.
Consequently, when the first-awaited factory call (the one before the loop)
succeeds, the token is never cancelled and `reduce_f` always succeeds, a run
can only finish with `Ok`, no matter how the other factory calls fail. -/
theorem speculative_failure_absorbed (c₀ : Conn)
    (hc0 : p.connResult 0 = Except.ok c₀)
    (hcancel : p.cancelAt = none)
    (hred : ∀ a' k v, ∃ a'', p.reducef a' k v = Except.ok a'') :
    (∀ (s : MRState K V Conn Acc E) (e : Cancellable E)
        (rest : List (Except (Cancellable E) Conn)),
        s.connDone = Except.error e :: rest →
        (loopConsume p s).workers = s.workers ∧
        (loopConsume p s).nConns = s.nConns ∧
        (loopConsume p s).connDone = rest) ∧
    (∀ (evs : List Sched) (r : Except (Cancellable E) Acc),
        (interp p (Sched.conn 0 :: evs)).phase = Phase.done r →
        ∃ a, r = Except.ok a) := by
  constructor
  · intro s e rest hcd
    unfold loopConsume
    rw [hcd]
    exact ⟨rfl, rfl, rfl⟩
  · intro evs r hr
    exact (GoodRun_interp p c₀ hc0 hcancel hred evs).1 r hr

end MasterSteps

/-- A concrete complete one-key run: 3 is the map multiplier, so the single
key 5 maps to 15 and the run returns `Ok 15`. -/
def exRunP : MRParams ℕ ℕ ℕ ℕ ℕ :=
  { keys := [5], max_connections := 1,
    connResult := fun _ => Except.ok 0, connTimeUs := fun _ => 1,
    mapf := fun c k => (k * 3, c), taskTimeUs := fun _ => 1,
    reducef := fun a _ v => Except.ok (a + v), cancelAt := none }

/-- A schedule that completes the `exRunP` run. -/
def exRunEvs : List Sched :=
  [Sched.conn 0, Sched.orch, Sched.claim 0, Sched.finishMap 0, Sched.send 0,
   Sched.claim 0, Sched.orch, Sched.orch, Sched.orch, Sched.orch]

theorem run_completeness_witness :
    (exRunP.keys ≠ [] ∧ exRunP.cancelAt = none ∧
      (interp exRunP exRunEvs).phase = Phase.done (Except.ok 15)) ∧
    ((interp exRunP exRunEvs).reduceLog.map (fun e => (e.key, e.val))).Perm
      (exRunP.keys.map (fun k => (k, k * 3))) ∧
    (15 : ℕ) = (interp exRunP exRunEvs).reduceLog.foldl (fun b e => b + e.val) 0 := by
  refine ⟨⟨by decide, rfl, by decide⟩, ?_⟩
  exact run_completeness exRunP (fun k => k * 3) (fun a _ v => a + v) exRunEvs 15
    (by decide) rfl (fun j => ⟨0, rfl⟩) (fun c k => rfl) (fun a' k v => rfl) (by decide)

theorem run_order_independence_witness :
    ((interp exRunP exRunEvs).phase = Phase.done (Except.ok 15) ∧
      (interp exRunP (Sched.orch :: exRunEvs)).phase = Phase.done (Except.ok 15)) ∧
    (15 : ℕ) = 15 := by
  refine ⟨⟨by decide, by decide⟩, ?_⟩
  exact run_order_independence exRunP (fun k => k * 3) (fun a _ v => a + v)
    (fun c k => rfl) (fun a' k v => rfl)
    (fun b x y => Nat.add_right_comm b x.2 y.2)
    exRunEvs (Sched.orch :: exRunEvs) 15 15 (by decide) (by decide)

/-- A two-key run in which the speculative second connection-factory call
fails: the failure is dropped inside the loop and the run still completes
with `Ok 33` (5·3 + 6·3). -/
def exC8P : MRParams ℕ ℕ ℕ ℕ ℕ :=
  { keys := [5, 6], max_connections := 3,
    connResult := fun j =>
      if j = 0 then Except.ok 0 else Except.error (Cancellable.error 7),
    connTimeUs := fun _ => 1,
    mapf := fun c k => (k * 3, c), taskTimeUs := fun _ => 1,
    reducef := fun a _ v => Except.ok (a + v), cancelAt := none }

/-- The `exC8P` schedule after the first connection completes: the failed
speculative connection result is delivered mid-loop and dropped. -/
def exC8Evs : List Sched :=
  [Sched.orch, Sched.conn 1, Sched.claim 0, Sched.finishMap 0, Sched.send 0,
   Sched.claim 0, Sched.finishMap 0, Sched.send 0, Sched.claim 0,
   Sched.orch, Sched.orch, Sched.orch, Sched.orch]

theorem speculative_failure_absorbed_witness :
    (exC8P.connResult 0 = Except.ok 0 ∧
      exC8P.connResult 1 = Except.error (Cancellable.error 7) ∧
      exC8P.cancelAt = none ∧
      (interp exC8P (Sched.conn 0 :: exC8Evs)).phase =
        Phase.done (Except.ok 33)) ∧
    ∃ a, (Except.ok 33 : Except (Cancellable ℕ) ℕ) = Except.ok a := by
  refine ⟨⟨rfl, rfl, rfl, by decide⟩, ?_⟩
  exact (speculative_failure_absorbed exC8P 0 rfl rfl
    (fun a' k v => ⟨a' + v, rfl⟩)).2 exC8Evs (Except.ok 33) (by decide)

/-- Parameters with an empty key list, exercising the early-return path. -/
def exC9P : MRParams ℕ ℕ ℕ ℕ ℕ :=
  { keys := [], max_connections := 4,
    connResult := fun _ => Except.ok 0, connTimeUs := fun _ => 1,
    mapf := fun c k => (k * 3, c), taskTimeUs := fun _ => 1,
    reducef := fun a _ v => Except.ok (a + v), cancelAt := none }

theorem run_empty_keys_witness :
    exC9P.keys = [] ∧
    ((interp exC9P [Sched.orch]).phase = Phase.done (Except.ok 0) ∧
      (interp exC9P [Sched.orch]).nConns = 0 ∧
      (interp exC9P [Sched.orch]).mapCalls = 0 ∧
      (interp exC9P [Sched.orch]).reduceLog = []) :=
  ⟨rfl, run_empty_keys exC9P rfl [Sched.orch]⟩

theorem growth_heuristic_witness :
    ((interp exRunP [Sched.conn 0, Sched.orch]).phase = Phase.loop ∧
      ¬((interp exRunP [Sched.conn 0, Sched.orch]).connDone.isEmpty ∧
        ¬ (interp exRunP [Sched.conn 0, Sched.orch]).pending.isEmpty) ∧
      ((orchStep exRunP (interp exRunP [Sched.conn 0, Sched.orch])).nConns =
          (interp exRunP [Sched.conn 0, Sched.orch]).nConns + 1 ↔
        (interp exRunP [Sched.conn 0, Sched.orch]).nConns < maxConns exRunP ∧
          growRatioHolds exRunP (interp exRunP [Sched.conn 0, Sched.orch]))) ∧
    ((interp exRunP []).taskCount = 0 ∧
      avg_task_time_us (interp exRunP []) = 0 ∧
      (step exRunP (interp exRunP []) Sched.orch).nConns = (interp exRunP []).nConns) := by
  refine ⟨⟨by decide, by decide, ?_⟩, by decide, ?_, ?_⟩
  · exact (growth_heuristic exRunP).1 (interp exRunP [Sched.conn 0, Sched.orch])
      (by decide) (by decide)
  · exact ((growth_heuristic exRunP).2 [] (by decide)).1
  · exact ((growth_heuristic exRunP).2 [] (by decide)).2

/-- Parameters whose connection factory always fails. -/
def exC5P : MRParams ℕ ℕ ℕ ℕ ℕ :=
  { keys := [5], max_connections := 2,
    connResult := fun _ => Except.error (Cancellable.error 3),
    connTimeUs := fun _ => 1,
    mapf := fun c k => (k * 3, c), taskTimeUs := fun _ => 1,
    reducef := fun a _ v => Except.ok (a + v), cancelAt := none }

theorem first_connection_failure_fatal_witness :
    (exC5P.connResult 0 = Except.error (Cancellable.error 3) ∧
      exC5P.connResult 1 = Except.error (Cancellable.error 3) ∧ exC5P.keys ≠ []) ∧
    ((interp exC5P [Sched.conn 0, Sched.orch]).mapCalls = 0 ∧
      (interp exC5P [Sched.conn 0, Sched.orch]).workers = [] ∧
      (∀ r, (interp exC5P [Sched.conn 0, Sched.orch]).phase = Phase.done r →
        r = Except.error (Cancellable.error 3))) :=
  ⟨⟨rfl, rfl, by decide⟩,
    first_connection_failure_fatal exC5P (Cancellable.error 3) rfl rfl (by decide)
      [Sched.conn 0, Sched.orch]⟩

end MapReduceModel